import Mathlib

/-!
# The `cmd` shell writer of gitlab-ci-multi-runner (`shells/cmd.go`)

A shallow embedding of the batch escaping functions and of `CmdWriter`.

Modelling conventions
* A Go `string` is a `List Char`.  Every substitution in the file looks for a
  single ASCII byte, which under UTF-8 never occurs inside a multi-byte
  sequence, so replacing per character agrees with replacing per byte.
* A writer method that can reach the failure branch of `strings.Repeat`
  (negative count) returns `Option CmdWriter`; `none` is the Go run-time failure.
* `indent` is an `Int`.  It is only ever incremented right after a successful
  `Line`, whose padding has length `2 * indent`, so the machine-word bound of a
  Go `int` is out of reach and no wrap-around is modelled.
* Functions of other packages that `cmd.go` calls and that are not part of the
  file (`helpers.ToBackslash`, `strconv.Quote` behind the `%q` verb,
  `fmt.Sprintf` with a caller-supplied format) are taken as parameters, bundled
  in `Extern`.  `path.Join`, `filepath.Join` and `filepath.IsAbs` are embedded
  from the Go standard library in their slash-separated form.
-/

namespace Shells

/-! ## Standard-library string functions -/

/-- Scanning loop of Go `strings.Replace(s, old, new, -1)` for a non-empty `old`:
non-overlapping occurrences are replaced left to right.  The counter is the number
of bytes of a matched occurrence that remain to be skipped. -/
def replaceLoop (old new : List Char) : Nat → List Char → List Char
  | _, [] => []
  | skip + 1, _ :: t => replaceLoop old new skip t
  | 0, c :: t =>
    if old.isPrefixOf (c :: t) then new ++ replaceLoop old new (old.length - 1) t
    else c :: replaceLoop old new 0 t

/-- Go `strings.Replace(s, old, new, -1)`.  With an empty `old` the replacement is
inserted before every character and at the end. -/
def stringsReplaceAll (s old new : List Char) : List Char :=
  match old with
  | [] => new ++ s.flatMap (fun c => c :: new)
  | _ :: _ => replaceLoop old new 0 s

/-- Go `strings.Repeat(s, count)`; `none` is the failure on a negative count. -/
def stringsRepeat (s : List Char) (count : Int) : Option (List Char) :=
  if count < 0 then none else some (List.replicate count.toNat s).flatten

/-- Go `strings.Join(elems, sep)`. -/
def stringsJoin (elems : List (List Char)) (sep : List Char) : List Char :=
  sep.intercalate elems

/-! ## `path.Clean`, `path.Join`, `filepath.Join`, `filepath.IsAbs` -/

/-- True when the remaining input is at the end of a path element: it is empty or
starts with a slash (`r+1 == n || path[r+1] == '/'`). -/
def atElemEnd : List Char → Bool
  | [] => true
  | c :: _ => c == '/'

/-- The backing-up loop of the `..` case of `Clean`, on the reversed output buffer:
`x` is `out.index(out.w)`, the byte just dropped;
`for out.w > dotdot && out.index(out.w) != '/' { out.w-- }`. -/
def cleanBackUp (dotdot : Nat) : List Char → Char → List Char
  | [], _ => []
  | y :: rest, x =>
    if dotdot < (y :: rest).length ∧ x ≠ '/' then cleanBackUp dotdot rest y else y :: rest

/-- The output buffer (reversed) and `dotdot` after the `..` case of `Clean`. -/
def cleanDotDot (rooted : Bool) (out : List Char) (dotdot : Nat) : List Char × Nat :=
  if dotdot < out.length then
    match out with
    | [] => (out, dotdot)
    | x :: rest => (cleanBackUp dotdot rest x, dotdot)
  else if !rooted then
    let out1 := if 0 < out.length then '/' :: out else out
    let out2 := '.' :: '.' :: out1
    (out2, out2.length)
  else (out, dotdot)

/-- The separator written before a real path element in the default case of `Clean`:
`if rooted && out.w != 1 || !rooted && out.w != 0 { out.append('/') }`. -/
def cleanSep (rooted : Bool) (out : List Char) : List Char :=
  if (rooted && out.length != 1) || (!rooted && out.length != 0) then '/' :: out else out

/-- The main loop of Go `path.Clean` over the unread input `path[r:]`, with the
output buffer kept reversed.  `copying` is true inside the inner loop of the default
case, which copies a path element up to the next slash. -/
def cleanLoop (rooted : Bool) : Bool → List Char → List Char → Nat → List Char
  | _, [], out, _ => out
  | true, c :: t, out, dotdot =>
    if c = '/' then cleanLoop rooted false t out dotdot
    else cleanLoop rooted true t (c :: out) dotdot
  | false, [c], out, dotdot =>
    if c = '/' then cleanLoop rooted false [] out dotdot
    else if c = '.' then cleanLoop rooted false [] out dotdot
    else cleanLoop rooted true [] (c :: cleanSep rooted out) dotdot
  | false, c :: c2 :: t2, out, dotdot =>
    if c = '/' then cleanLoop rooted false (c2 :: t2) out dotdot
    else if c = '.' ∧ c2 = '/' then cleanLoop rooted false (c2 :: t2) out dotdot
    else if c = '.' ∧ c2 = '.' ∧ atElemEnd t2 then
      cleanLoop rooted false t2 (cleanDotDot rooted out dotdot).1
        (cleanDotDot rooted out dotdot).2
    else cleanLoop rooted true (c2 :: t2) (c :: cleanSep rooted out) dotdot

/-- Go `path.Clean` (which is `filepath.Clean` where the separator is a slash). -/
def pathClean (path : List Char) : List Char :=
  match path with
  | [] => ".".toList
  | c :: t =>
    let out :=
      if c = '/' then cleanLoop true false t ['/'] 1
      else cleanLoop false false (c :: t) [] 0
    if out.length = 0 then ".".toList else out.reverse

/-- Go `path.Join`: the elements from the first non-empty one on are joined with
slashes and cleaned; the result is empty when every element is empty. -/
def pathJoin : List (List Char) → List Char
  | [] => []
  | e :: rest => if e = [] then pathJoin rest else pathClean (stringsJoin (e :: rest) "/".toList)

/-- Go `filepath.Join` with the slash as separator. -/
def filepathJoin (elem : List (List Char)) : List Char := pathJoin elem

/-- Go `filepath.IsAbs` with the slash as separator: `strings.HasPrefix(path, "/")`. -/
def filepathIsAbs (path : List Char) : Bool := "/".toList.isPrefixOf path

/-! ## Escaping (`cmd.go` lines 24-45) -/

/-- Source `batchEscape`: eight replace-all steps, in order. -/
def batchEscape (text : List Char) : List Char :=
  let text := stringsReplaceAll text "^".toList "^^".toList
  let text := stringsReplaceAll text "!".toList "^^!".toList
  let text := stringsReplaceAll text "&".toList "^&".toList
  let text := stringsReplaceAll text "<".toList "^<".toList
  let text := stringsReplaceAll text ">".toList "^>".toList
  let text := stringsReplaceAll text "|".toList "^|".toList
  let text := stringsReplaceAll text "\r".toList "".toList
  let text := stringsReplaceAll text "\n".toList "!nl!".toList
  text

/-- Source `batchQuote`. -/
def batchQuote (text : List Char) : List Char :=
  "\"".toList ++ batchEscape text ++ "\"".toList

/-- Source `batchEscapeVariable`. -/
def batchEscapeVariable (text : List Char) : List Char :=
  let text := stringsReplaceAll text "%".toList "%%".toList
  let text := batchEscape text
  text

/-! ## The writer (`cmd.go` lines 18-22, 51-160) -/

/-- A value passed to a formatting call (`interface{}`). -/
inductive GoValue where
  | str (s : List Char)
  | int (i : Int)
  | bool (b : Bool)
deriving DecidableEq, Repr

/-- Functions of other packages used by the writer. -/
structure Extern where
  /-- Stands for `helpers.ToBackslash`. -/
  ToBackslash : List Char → List Char
  /-- Stands for `strconv.Quote`, the `%q` verb of `fmt.Sprintf` on a string. -/
  Quote : List Char → List Char
  /-- Stands for `fmt.Sprintf` with a caller-supplied format. -/
  Sprintf : List Char → List GoValue → List Char

/-- Modelled from the spec: the type `common.BuildVariable`, which is declared outside
`cmd.go`; the data model gives it the fields `Key`, `Value` and `File`, the three that
`Variable` reads. -/
structure BuildVariable where
  Key : List Char
  Value : List Char
  File : Bool
deriving DecidableEq, Repr

/-- Source `CmdWriter`; `Buffer` is the content of the embedded `bytes.Buffer`. -/
structure CmdWriter where
  Buffer : List Char
  TemporaryPath : List Char
  indent : Int
deriving DecidableEq, Repr

namespace CmdWriter

/-- The method `bytes.Buffer.WriteString`: append to the buffer. -/
def WriteString (b : CmdWriter) (s : List Char) : CmdWriter :=
  { b with Buffer := b.Buffer ++ s }

/-- Source `Line`. -/
def Line (b : CmdWriter) (text : List Char) : Option CmdWriter :=
  match stringsRepeat "  ".toList b.indent with
  | none => none
  | some pad => some (b.WriteString (pad ++ text ++ "\r\n".toList))

/-- Source `Indent`. -/
def Indent (b : CmdWriter) : CmdWriter := { b with indent := b.indent + 1 }

/-- Source `Unindent`. -/
def Unindent (b : CmdWriter) : CmdWriter := { b with indent := b.indent - 1 }

/-- Source `checkErrorLevel`. -/
def checkErrorLevel (b : CmdWriter) : Option CmdWriter :=
  (b.Line "IF %errorlevel% NEQ 0 exit /b %errorlevel%".toList).bind fun b1 =>
  b1.Line "".toList

/-- Source `CheckForErrors`. -/
def CheckForErrors (b : CmdWriter) : Option CmdWriter := b.checkErrorLevel

/-- Source `Command`: the list starts with the quoted command and each argument is
appended quoted. -/
def Command (b : CmdWriter) (command : List Char) (arguments : List (List Char)) :
    Option CmdWriter :=
  let list := arguments.foldl (fun l argument => l ++ [batchQuote argument])
    [batchQuote command]
  (b.Line (stringsJoin list " ".toList)).bind fun b1 =>
  b1.checkErrorLevel

/-- Source `Absolute`. -/
def Absolute (_b : CmdWriter) (dir : List Char) : List Char :=
  if filepathIsAbs dir then dir else filepathJoin ["%CD%".toList, dir]

/-- Source `Variable`.  `"md %q 2>NUL 1>NUL"` and `"echo %s > %s"` are expanded:
`%s` inserts its string argument and `%q` its quoted form. -/
def Variable (ext : Extern) (b : CmdWriter) (v : BuildVariable) : Option CmdWriter :=
  if v.File then
    let variableFile := b.Absolute (pathJoin [b.TemporaryPath, v.Key])
    let variableFile := ext.ToBackslash variableFile
    (b.Line ("md ".toList ++ ext.Quote (batchEscape (ext.ToBackslash b.TemporaryPath))
      ++ " 2>NUL 1>NUL".toList)).bind fun b1 =>
    (b1.Line ("echo ".toList ++ batchEscapeVariable v.Value ++ " > ".toList
      ++ batchEscape variableFile)).bind fun b2 =>
    b2.Line ("SET ".toList ++ batchEscapeVariable v.Key ++ "=".toList
      ++ batchEscape variableFile)
  else
    b.Line ("SET ".toList ++ batchEscapeVariable v.Key ++ "=".toList
      ++ batchEscapeVariable v.Value)

/-- Source `IfDirectory`. -/
def IfDirectory (ext : Extern) (b : CmdWriter) (path : List Char) : Option CmdWriter :=
  (b.Line ("IF EXIST ".toList ++ batchQuote (ext.ToBackslash path) ++ " (".toList)).map Indent

/-- Source `IfFile`. -/
def IfFile (ext : Extern) (b : CmdWriter) (path : List Char) : Option CmdWriter :=
  (b.Line ("IF EXIST ".toList ++ batchQuote (ext.ToBackslash path) ++ " (".toList)).map Indent

/-- Source `Else`. -/
def Else (b : CmdWriter) : Option CmdWriter :=
  (b.Unindent.Line ") ELSE (".toList).map Indent

/-- Source `EndIf`. -/
def EndIf (b : CmdWriter) : Option CmdWriter :=
  b.Unindent.Line ")".toList

/-- Source `Cd`. -/
def Cd (ext : Extern) (b : CmdWriter) (path : List Char) : Option CmdWriter :=
  (b.Line ("cd /D ".toList ++ batchQuote (ext.ToBackslash path))).bind fun b1 =>
  b1.checkErrorLevel

/-- Source `RmDir`. -/
def RmDir (ext : Extern) (b : CmdWriter) (path : List Char) : Option CmdWriter :=
  b.Line ("rd /s /q ".toList ++ batchQuote (ext.ToBackslash path) ++ " 2>NUL 1>NUL".toList)

/-- Source `RmFile`. -/
def RmFile (ext : Extern) (b : CmdWriter) (path : List Char) : Option CmdWriter :=
  b.Line ("rd /s /q ".toList ++ batchQuote (ext.ToBackslash path) ++ " 2>NUL 1>NUL".toList)

/-- Source `Print`. -/
def Print (ext : Extern) (b : CmdWriter) (format : List Char) (arguments : List GoValue) :
    Option CmdWriter :=
  let coloredText := ext.Sprintf format arguments
  b.Line ("echo ".toList ++ batchEscapeVariable coloredText)

/-- Source `Notice`. -/
def Notice (ext : Extern) (b : CmdWriter) (format : List Char) (arguments : List GoValue) :
    Option CmdWriter :=
  let coloredText := ext.Sprintf format arguments
  b.Line ("echo ".toList ++ batchEscapeVariable coloredText)

/-- Source `Warning`. -/
def Warning (ext : Extern) (b : CmdWriter) (format : List Char) (arguments : List GoValue) :
    Option CmdWriter :=
  let coloredText := ext.Sprintf format arguments
  b.Line ("echo ".toList ++ batchEscapeVariable coloredText)

/-- Source `Error`. -/
def Error (ext : Extern) (b : CmdWriter) (format : List Char) (arguments : List GoValue) :
    Option CmdWriter :=
  let coloredText := ext.Sprintf format arguments
  b.Line ("echo ".toList ++ batchEscapeVariable coloredText)

/-- Source `EmptyLine`. -/
def EmptyLine (b : CmdWriter) : Option CmdWriter := b.Line "echo.".toList

end CmdWriter

/-- Source `newCmdWriter`.  The argument is the value of `info.Build.FullProjectDir()`,
the only part of the build information that the function reads. -/
def newCmdWriter (fullProjectDir : List Char) : Option CmdWriter :=
  let w : CmdWriter :=
    { Buffer := [], TemporaryPath := fullProjectDir ++ ".tmp".toList, indent := 0 }
  (w.Line "@echo off".toList).bind fun w1 =>
  (w1.Line "setlocal enableextensions".toList).bind fun w2 =>
  (w2.Line "setlocal enableDelayedExpansion".toList).bind fun w3 =>
  w3.Line "set nl=^\r\n\r\n".toList

/-! ## Sequences of writer operations -/

/-- One call of the capability interface on a writer.  `Indent` and `Unindent` are
the nesting primitives behind the block operations and are not calls of their own. -/
inductive Op where
  | Line (text : List Char)
  | CheckForErrors
  | Command (command : List Char) (arguments : List (List Char))
  | Variable (v : BuildVariable)
  | IfDirectory (path : List Char)
  | IfFile (path : List Char)
  | Else
  | EndIf
  | Cd (path : List Char)
  | RmDir (path : List Char)
  | RmFile (path : List Char)
  | Print (format : List Char) (arguments : List GoValue)
  | Notice (format : List Char) (arguments : List GoValue)
  | Warning (format : List Char) (arguments : List GoValue)
  | Error (format : List Char) (arguments : List GoValue)
  | EmptyLine
deriving DecidableEq, Repr

/-- The writer after one call. -/
def Op.apply (ext : Extern) (b : CmdWriter) : Op → Option CmdWriter
  | .Line text => b.Line text
  | .CheckForErrors => b.CheckForErrors
  | .Command command arguments => b.Command command arguments
  | .Variable v => b.Variable ext v
  | .IfDirectory path => b.IfDirectory ext path
  | .IfFile path => b.IfFile ext path
  | .Else => b.Else
  | .EndIf => b.EndIf
  | .Cd path => b.Cd ext path
  | .RmDir path => b.RmDir ext path
  | .RmFile path => b.RmFile ext path
  | .Print format arguments => b.Print ext format arguments
  | .Notice format arguments => b.Notice ext format arguments
  | .Warning format arguments => b.Warning ext format arguments
  | .Error format arguments => b.Error ext format arguments
  | .EmptyLine => b.EmptyLine

/-- The writer after a sequence of calls; `none` as soon as one of them fails. -/
def runOps (ext : Extern) : List Op → CmdWriter → Option CmdWriter
  | [], b => some b
  | op :: rest, b => (op.apply ext b).bind (runOps ext rest)

/-- The calls that open a conditional block. -/
def Op.opensBlock : Op → Bool
  | .IfDirectory _ => true
  | .IfFile _ => true
  | _ => false

/-- The call that closes a conditional block. -/
def Op.closesBlock : Op → Bool
  | .EndIf => true
  | _ => false

/-- The calls that need an open conditional block around them. -/
def Op.needsOpenBlock : Op → Bool
  | .Else => true
  | .EndIf => true
  | _ => false

/-- Change of the nesting depth by one call. -/
def Op.indentDelta (op : Op) : Int :=
  if op.opensBlock then 1 else if op.closesBlock then -1 else 0

/-- Nesting depth after a sequence of calls started at depth `d`; `none` when an
`EndIf` or an `Else` is issued at depth 0. -/
def nestingDepth : Nat → List Op → Option Nat
  | d, [] => some d
  | d, op :: rest =>
    if op.needsOpenBlock ∧ d = 0 then none
    else nestingDepth (if op.opensBlock then d + 1 else if op.closesBlock then d - 1 else d) rest

/-- Number of `IfDirectory` and `IfFile` calls in a sequence. -/
def opensIn (ops : List Op) : Nat := ops.countP Op.opensBlock

/-- Number of `EndIf` calls in a sequence. -/
def closesIn (ops : List Op) : Nat := ops.countP Op.closesBlock

/-! ## Specification-side definitions -/

/-- The per-character reading of `batchEscape` given in the specification: the image
of one character under the single left-to-right pass. -/
def escapeChar (c : Char) : List Char :=
  if c = '^' then "^^".toList
  else if c = '!' then "^^!".toList
  else if c = '&' then "^&".toList
  else if c = '<' then "^<".toList
  else if c = '>' then "^>".toList
  else if c = '|' then "^|".toList
  else if c = '\r' then "".toList
  else if c = '\n' then "!nl!".toList
  else [c]

/-- The single left-to-right pass of the specification: every character is mapped
independently and the images are concatenated. -/
def escapePass (text : List Char) : List Char := text.flatMap escapeChar

/-- The image of one character under `batchEscapeVariable`: a percent sign is doubled,
any other character is escaped as by `batchEscape`. -/
def escapeVariableChar (c : Char) : List Char :=
  if c = '%' then "%%".toList else escapeChar c

/-- Lengths of the maximal runs of the character `c` in a text, left to right; `k` is
the length of the run that is being read. -/
def runLengths (c : Char) : Nat → List Char → List Nat
  | k, [] => if k = 0 then [] else [k]
  | k, x :: t =>
    if x = c then runLengths c (k + 1) t
    else (if k = 0 then [] else [k]) ++ runLengths c 0 t

/-- The text without its carriage returns. -/
def removeCR (text : List Char) : List Char := text.filter (fun c => c != '\r')

/-- Reading loop of the decoder over the reversed escaped text.  Every escape token
ends in the character it stands for, so the tokens are read from the end of the text:
`!nl!` is a line feed, `^^!` an exclamation mark, `^^` a caret, a caret before `&`,
`<`, `>` or `|` is dropped, any other character stands for itself.  The counter is the
number of characters of the current token that remain to be skipped. -/
def decodeLoop : Nat → List Char → List Char
  | _, [] => []
  | skip + 1, _ :: t => decodeLoop skip t
  | 0, c :: t =>
    if "!ln!".toList.isPrefixOf (c :: t) then '\n' :: decodeLoop 3 t
    else if "!^^".toList.isPrefixOf (c :: t) then '!' :: decodeLoop 2 t
    else if "^^".toList.isPrefixOf (c :: t) then '^' :: decodeLoop 1 t
    else if (c = '&' ∨ c = '<' ∨ c = '>' ∨ c = '|') ∧ "^".toList.isPrefixOf t then
      c :: decodeLoop 1 t
    else c :: decodeLoop 0 t

/-- The text between the first and the last character (the outer quotes). -/
def stripQuotes (text : List Char) : List Char := (text.drop 1).dropLast

/-- The decoding function for quoted text: the outer quotes are stripped and the escape
tokens are read back. -/
def batchDecode (text : List Char) : List Char :=
  (decodeLoop 0 (stripQuotes text).reverse).reverse

/-- The indentation of a line at indent `n`: `2 * n` spaces. -/
def indentPad (n : Int) : List Char := List.replicate (2 * n.toNat) ' '

/-- The line terminator written by `Line`. -/
def crlf : List Char := "\r\n".toList

/-- The text of the status-check line written by `checkErrorLevel`. -/
def statusCheck : List Char := "IF %errorlevel% NEQ 0 exit /b %errorlevel%".toList

/-- A text that fits on one script line: it holds no carriage return and no line feed. -/
def oneLine (text : List Char) : Prop := '\r' ∉ text ∧ '\n' ∉ text

instance (text : List Char) : Decidable (oneLine text) := by
  unfold oneLine; infer_instance

/-- A sample of the external functions, for concrete evaluations: `ToBackslash` turns
every slash into a backslash, `Quote` puts the text between double quotes (what
`strconv.Quote` does to text without quotes, backslashes or unprintable characters),
and `Sprintf` returns the format (what `fmt.Sprintf` does to a format without verbs). -/
def Extern.sample : Extern where
  ToBackslash := fun text => stringsReplaceAll text "/".toList "\\".toList
  Quote := fun text => "\"".toList ++ text ++ "\"".toList
  Sprintf := fun format _ => format

/-- A plain path element: not empty, without a slash, and neither `.` nor `..`. -/
def plainElem (e : List Char) : Prop :=
  e ≠ [] ∧ '/' ∉ e ∧ e ≠ ".".toList ∧ e ≠ "..".toList

instance (e : List Char) : Decidable (plainElem e) := by
  unfold plainElem; infer_instance

/-- The writer `b` after text was appended and the indent moved by `delta`. -/
def CmdWriter.after (b : CmdWriter) (s : List Char) (delta : Int) : CmdWriter :=
  { Buffer := b.Buffer ++ s, TemporaryPath := b.TemporaryPath, indent := b.indent + delta }

/-- The shell metacharacters that `batchEscape` prefixes with one caret. -/
def isMeta (c : Char) : Prop := c = '&' ∨ c = '<' ∨ c = '>' ∨ c = '|'

instance (c : Char) : Decidable (isMeta c) := by
  unfold isMeta; infer_instance

/-- Check, left to right, that every metacharacter of a text comes after a run of carets
of odd length; `k` is the length of the run of carets just read. -/
def caretsOK : Nat → List Char → Bool
  | _, [] => true
  | k, c :: t =>
    if c = '^' then caretsOK (k + 1) t
    else if isMeta c then (k % 2 == 1) && caretsOK 0 t
    else caretsOK 0 t

/-! ## `GenerateScript` (`cmd.go` lines 173-214) -/

/-- Modelled from the spec: the build description inside `common.ShellScriptInfo`, which
is declared outside `cmd.go`; `cmd.go` reads the value of `FullProjectDir()` and the field
`Hostname`. -/
structure BuildInfo where
  FullProjectDir : List Char
  Hostname : List Char
deriving DecidableEq, Repr

/-- Modelled from the spec: the type `common.ShellScriptInfo`, the build-description
handle given to `GenerateScript`, declared outside `cmd.go`. -/
structure ShellScriptInfo where
  Build : BuildInfo
deriving DecidableEq, Repr

/-- A Go `error` value that is not nil. -/
structure GoError where
  message : List Char
deriving DecidableEq, Repr

/-- Modelled from the spec: the type `common.ShellScript`, the script descriptor, declared
outside `cmd.go`; the fields are those that `GenerateScript` fills. -/
structure ShellScript where
  PreScript : List Char
  BuildScript : List Char
  AfterScript : List Char
  PostScript : List Char
  Command : List Char
  Arguments : List (List Char)
  PassFile : Bool
  Extension : List Char
deriving DecidableEq, Repr

/-- A phase generator: it works on the writer it is given and returns the writer as it
left it together with its error, `none` for `nil`. -/
abbrev PhaseGenerator : Type := CmdWriter → ShellScriptInfo → CmdWriter × Option GoError

/-- The four phase generators that `CmdShell` has from the embedded `AbstractShell`, which
is declared outside `cmd.go`; they are parameters of `GenerateScript`. -/
structure AbstractShell where
  GeneratePreBuild : PhaseGenerator
  GenerateBuild : PhaseGenerator
  GenerateAfterBuild : PhaseGenerator
  GeneratePostBuild : PhaseGenerator

/-- The four phases, in the order in which `GenerateScript` calls their generators. -/
inductive Phase where
  | PreBuild
  | Build
  | AfterBuild
  | PostBuild
deriving DecidableEq, Repr

/-- The two results of `GenerateScript` (`none` for `nil`), and the phase generators that
the call has run, in order. -/
structure Generated where
  script : Option ShellScript
  err : Option GoError
  called : List Phase
deriving DecidableEq, Repr

/-- Source `GenerateScript`.  Every `return` inside an `if err != nil` leaves `script` at
`nil`.  The outer `Option` is `none` when a `Line` call of the function itself fails. -/
def GenerateScript (b : AbstractShell) (info : ShellScriptInfo) : Option Generated :=
  (newCmdWriter info.Build.FullProjectDir).bind fun preScript0 =>
  (if info.Build.Hostname.length ≠ 0 then
    preScript0.Line ("echo Running on %COMPUTERNAME% via ".toList
      ++ batchEscape info.Build.Hostname ++ "...".toList)
  else
    preScript0.Line "echo Running on %COMPUTERNAME%...".toList).bind fun preScript1 =>
  match b.GeneratePreBuild preScript1 info with
  | (_, some err) => some { script := none, err := some err, called := [Phase.PreBuild] }
  | (preScript, none) =>
    (newCmdWriter info.Build.FullProjectDir).bind fun buildScript0 =>
    match b.GenerateBuild buildScript0 info with
    | (_, some err) =>
      some { script := none, err := some err, called := [Phase.PreBuild, Phase.Build] }
    | (buildScript, none) =>
      (newCmdWriter info.Build.FullProjectDir).bind fun afterScript0 =>
      match b.GenerateAfterBuild afterScript0 info with
      | (_, some err) =>
        some { script := none, err := some err,
               called := [Phase.PreBuild, Phase.Build, Phase.AfterBuild] }
      | (afterScript, none) =>
        (newCmdWriter info.Build.FullProjectDir).bind fun postScript0 =>
        match b.GeneratePostBuild postScript0 info with
        | (_, some err) =>
          some { script := none, err := some err,
                 called := [Phase.PreBuild, Phase.Build, Phase.AfterBuild, Phase.PostBuild] }
        | (postScript, none) =>
          some {
            script := some {
              PreScript := preScript.Buffer
              BuildScript := buildScript.Buffer
              AfterScript := afterScript.Buffer
              PostScript := postScript.Buffer
              Command := "cmd".toList
              Arguments := ["/Q".toList, "/C".toList]
              PassFile := true
              Extension := "cmd".toList }
            err := none
            called := [Phase.PreBuild, Phase.Build, Phase.AfterBuild, Phase.PostBuild] }

/-- The three-line bootstrap prologue of every script body. -/
def prologue : List Char :=
  "@echo off\r\nsetlocal enableextensions\r\nsetlocal enableDelayedExpansion\r\n".toList

/-- The writer that `newCmdWriter` hands out: the prologue and the definition of `nl`,
at indent 0. -/
def scriptStart (info : ShellScriptInfo) : CmdWriter :=
  { Buffer := prologue ++ "set nl=^\r\n\r\n\r\n".toList
    TemporaryPath := info.Build.FullProjectDir ++ ".tmp".toList
    indent := 0 }

/-- The banner line of the pre-build script. -/
def banner (info : ShellScriptInfo) : List Char :=
  if info.Build.Hostname.length ≠ 0 then
    "echo Running on %COMPUTERNAME% via ".toList ++ batchEscape info.Build.Hostname
      ++ "...".toList
  else "echo Running on %COMPUTERNAME%...".toList

/-- The writer given to the pre-build generator: a fresh writer with the banner line. -/
def preScriptStart (info : ShellScriptInfo) : CmdWriter :=
  (scriptStart info).WriteString (banner info ++ crlf)

/-- A sample of phase generators, for concrete evaluations: each appends one `echo` line
to its writer and reports no error. -/
def AbstractShell.sample : AbstractShell where
  GeneratePreBuild := fun w _ => (w.WriteString "echo pre\r\n".toList, none)
  GenerateBuild := fun w _ => (w.WriteString "echo build\r\n".toList, none)
  GenerateAfterBuild := fun w _ => (w.WriteString "echo after\r\n".toList, none)
  GeneratePostBuild := fun w _ => (w.WriteString "echo post\r\n".toList, none)

/-! ## Layout of conditional blocks -/

/-- The texts that a call passes to `Line`, in order (read off the source of each
method); `b` supplies `TemporaryPath`. -/
def Op.lineTexts (ext : Extern) (b : CmdWriter) : Op → List (List Char)
  | .Line text => [text]
  | .CheckForErrors => [statusCheck, []]
  | .Command command arguments =>
    [stringsJoin (batchQuote command :: arguments.map batchQuote) " ".toList, statusCheck, []]
  | .Variable v =>
    if v.File then
      ["md ".toList ++ ext.Quote (batchEscape (ext.ToBackslash b.TemporaryPath))
          ++ " 2>NUL 1>NUL".toList,
        "echo ".toList ++ batchEscapeVariable v.Value ++ " > ".toList
          ++ batchEscape (ext.ToBackslash (b.Absolute (pathJoin [b.TemporaryPath, v.Key]))),
        "SET ".toList ++ batchEscapeVariable v.Key ++ "=".toList
          ++ batchEscape (ext.ToBackslash (b.Absolute (pathJoin [b.TemporaryPath, v.Key])))]
    else
      ["SET ".toList ++ batchEscapeVariable v.Key ++ "=".toList
        ++ batchEscapeVariable v.Value]
  | .IfDirectory path => ["IF EXIST ".toList ++ batchQuote (ext.ToBackslash path) ++ " (".toList]
  | .IfFile path => ["IF EXIST ".toList ++ batchQuote (ext.ToBackslash path) ++ " (".toList]
  | .Else => [") ELSE (".toList]
  | .EndIf => [")".toList]
  | .Cd path => ["cd /D ".toList ++ batchQuote (ext.ToBackslash path), statusCheck, []]
  | .RmDir path =>
    ["rd /s /q ".toList ++ batchQuote (ext.ToBackslash path) ++ " 2>NUL 1>NUL".toList]
  | .RmFile path =>
    ["rd /s /q ".toList ++ batchQuote (ext.ToBackslash path) ++ " 2>NUL 1>NUL".toList]
  | .Print format arguments => ["echo ".toList ++ batchEscapeVariable (ext.Sprintf format arguments)]
  | .Notice format arguments => ["echo ".toList ++ batchEscapeVariable (ext.Sprintf format arguments)]
  | .Warning format arguments => ["echo ".toList ++ batchEscapeVariable (ext.Sprintf format arguments)]
  | .Error format arguments => ["echo ".toList ++ batchEscapeVariable (ext.Sprintf format arguments)]
  | .EmptyLine => ["echo.".toList]

/-- The indent at which a call writes its lines, relative to the indent before the call:
`Else` and `EndIf` unindent first. -/
def Op.lineShift (op : Op) : Int := if op.needsOpenBlock then -1 else 0

/-- The nesting level of the lines inside the innermost open block: one more than the
level of the line that opened it; level 0 outside every block.  The stack holds, for
every open block from the innermost outwards, the level of its `IF EXIST` line. -/
def insideLevel : List Nat → Nat
  | [] => 0
  | opened :: _ => opened + 1

/-- The layout of a sequence of calls as the specification describes it: every line with
its nesting level.  An `IF EXIST` line is written at the current level, which is
recorded for its block; the `) ELSE (` and `)` lines of a block are written at the
recorded level of its `IF EXIST` line; every other line is written one level further in
than the innermost open block.  `none` when an `Else` or `EndIf` has no open block. -/
def layout (ext : Extern) (b : CmdWriter) : List Nat → List Op → Option (List (Nat × List Char))
  | _, [] => some []
  | stack, op :: rest =>
    if op.opensBlock then
      (layout ext b (insideLevel stack :: stack) rest).map fun l =>
        (op.lineTexts ext b).map (fun t => (insideLevel stack, t)) ++ l
    else if op.needsOpenBlock then
      match stack with
      | [] => none
      | opened :: outer =>
        (layout ext b (if op.closesBlock then outer else opened :: outer) rest).map fun l =>
          (op.lineTexts ext b).map (fun t => (opened, t)) ++ l
    else
      (layout ext b stack rest).map fun l =>
        (op.lineTexts ext b).map (fun t => (insideLevel stack, t)) ++ l

/-- The script text of a layout from the starting indent `base`: every line after two
spaces for each unit of `base` plus its level, ended by CRLF. -/
def renderLines (base : Int) (lines : List (Nat × List Char)) : List Char :=
  lines.flatMap fun p => indentPad (base + p.1) ++ p.2 ++ crlf

/-- Number of spaces at the start of a text. -/
def leadingSpaces (text : List Char) : Nat := (text.takeWhile (fun c => c == ' ')).length

/-- A stack of recorded levels as `layout` builds it from the empty stack: each block was
opened at the level given by the blocks around it. -/
def stackOK : List Nat → Prop
  | [] => True
  | opened :: outer => opened = outer.length ∧ stackOK outer

/-- The elements of a path: the pieces between its slashes (empty pieces included). -/
def pathElems : List Char → List (List Char)
  | [] => [[]]
  | c :: t =>
    if c = '/' then [] :: pathElems t
    else
      match pathElems t with
      | [] => [[c]]
      | e :: es => (c :: e) :: es

/-- A path element that survives cleaning: neither empty nor `.`. -/
def keptElem (e : List Char) : Bool := decide (e ≠ [] ∧ e ≠ ".".toList)

/-! # Theorems -/

/-! ## Replace-all of a single character -/

theorem replaceLoop_single (c : Char) (new s : List Char) :
    replaceLoop [c] new 0 s = s.flatMap (fun x => if x = c then new else [x]) := by
  induction s with
  | nil => simp [replaceLoop]
  | cons x t ih =>
    by_cases h : x = c
    · subst h
      simp [replaceLoop, ih]
    · have h2 : ¬ c = x := fun e => h e.symm
      simp [replaceLoop, ih, h, h2]

theorem stringsReplaceAll_single (c : Char) (new s : List Char) :
    stringsReplaceAll s [c] new = s.flatMap (fun x => if x = c then new else [x]) := by
  simp [stringsReplaceAll, replaceLoop_single]

theorem escapeChain_char (c : Char) :
    ((if c = '^' then "^^".toList else [c]).flatMap fun x =>
      (if x = '!' then "^^!".toList else [x]).flatMap fun x =>
      (if x = '&' then "^&".toList else [x]).flatMap fun x =>
      (if x = '<' then "^<".toList else [x]).flatMap fun x =>
      (if x = '>' then "^>".toList else [x]).flatMap fun x =>
      (if x = '|' then "^|".toList else [x]).flatMap fun x =>
      (if x = '\r' then "".toList else [x]).flatMap fun x =>
      if x = '\n' then "!nl!".toList else [x]) = escapeChar c := by
  unfold escapeChar
  by_cases h1 : c = '^'
  · subst h1; simp
  by_cases h2 : c = '!'
  · subst h2; simp
  by_cases h3 : c = '&'
  · subst h3; simp
  by_cases h4 : c = '<'
  · subst h4; simp
  by_cases h5 : c = '>'
  · subst h5; simp
  by_cases h6 : c = '|'
  · subst h6; simp
  by_cases h7 : c = '\r'
  · subst h7; simp
  by_cases h8 : c = '\n'
  · subst h8; simp
  simp [h1, h2, h3, h4, h5, h6, h7, h8]

theorem batchEscape_eq_flatMap (T : List Char) : batchEscape T = T.flatMap escapeChar := by
  unfold batchEscape
  simp only [show "^".toList = ['^'] from rfl, show "!".toList = ['!'] from rfl,
    show "&".toList = ['&'] from rfl, show "<".toList = ['<'] from rfl,
    show ">".toList = ['>'] from rfl, show "|".toList = ['|'] from rfl,
    show "\r".toList = ['\r'] from rfl, show "\n".toList = ['\n'] from rfl,
    stringsReplaceAll_single, List.flatMap_assoc]
  congr 1
  funext c
  exact escapeChain_char c

/-- C2: the chain of eight replace-all steps of `batchEscape` equals the single
left-to-right pass that maps each character independently (`^` to `^^`, `!` to `^^!`,
`&`, `<`, `>`, `|` to their caret-prefixed form, carriage return to nothing, line feed
to `!nl!`, any other character to itself) and concatenates the images. -/
theorem batchEscape_eq_escapePass (T : List Char) : batchEscape T = escapePass T :=
  batchEscape_eq_flatMap T

/-! ## Runs of a character -/

theorem runLengths_skip (c : Char) (l rest : List Char) (h : c ∉ l) :
    runLengths c 0 (l ++ rest) = runLengths c 0 rest := by
  induction l with
  | nil => rfl
  | cons x t ih =>
    have hx : x ≠ c := fun e => h (by simp [e])
    have ht : c ∉ t := fun e => h (by simp [e])
    simp [runLengths, hx, ih ht]

theorem runLengths_replicate (c : Char) (post : List Char) (hpost : post.head? ≠ some c) :
    ∀ (k j : Nat), 0 < j + k → (j + k) ∈ runLengths c j (List.replicate k c ++ post) := by
  intro k
  induction k with
  | zero =>
    intro j hj
    have hj0 : j ≠ 0 := by omega
    cases post with
    | nil => simp [runLengths, hj0]
    | cons y t =>
      have hy : y ≠ c := fun e => hpost (by simp [e])
      simp [runLengths, hj0, hy]
  | succ k ih =>
    intro j _
    have := ih (j + 1) (by omega)
    simp only [List.replicate_succ, List.cons_append, runLengths, if_true]
    rw [show j + (k + 1) = j + 1 + k by omega]
    exact this

theorem runLengths_mem (c : Char) (k : Nat) (hk : 0 < k) (post : List Char)
    (hpost : post.head? ≠ some c) :
    ∀ (pre : List Char) (j : Nat), pre ≠ [] → pre.getLast? ≠ some c →
      k ∈ runLengths c j (pre ++ (List.replicate k c ++ post)) := by
  intro pre
  induction pre with
  | nil => intro j h; exact absurd rfl h
  | cons x t ih =>
    intro j _ hlast
    cases t with
    | nil =>
      have hx : x ≠ c := fun e => hlast (by simp [e])
      have := runLengths_replicate c post hpost k 0 (by omega)
      simp only [Nat.zero_add] at this
      simp only [List.cons_append, List.nil_append, runLengths, hx, if_false]
      exact List.mem_append_right _ this
    | cons y t2 =>
      have hlast2 : (y :: t2).getLast? ≠ some c := by
        simpa [List.getLast?_cons_cons] using hlast
      by_cases hx : x = c
      · simp only [List.cons_append, runLengths, hx, if_true]
        exact ih (j + 1) (by simp) hlast2
      · rw [List.cons_append]
        simp only [runLengths, hx, if_false]
        exact List.mem_append_right _ (ih 0 (by simp) hlast2)

/-- Every maximal run of `c`, given by a decomposition of the text, is counted by
`runLengths`. -/
theorem maximal_run_mem_runLengths (c : Char) (pre post : List Char) (k : Nat) (hk : 0 < k)
    (hpre : pre.getLast? ≠ some c) (hpost : post.head? ≠ some c) :
    k ∈ runLengths c 0 (pre ++ List.replicate k c ++ post) := by
  rw [List.append_assoc]
  cases pre with
  | nil =>
    have := runLengths_replicate c post hpost k 0 (by omega)
    simpa using this
  | cons x t => exact runLengths_mem c k hk post hpost (x :: t) 0 (by simp) hpre

/-! ## `batchEscapeVariable` character by character -/

theorem percent_not_mem_escapeChar (c : Char) (h : c ≠ '%') : '%' ∉ escapeChar c := by
  unfold escapeChar
  split_ifs <;> simp [Ne.symm h]

theorem batchEscapeVariable_eq_flatMap (T : List Char) :
    batchEscapeVariable T = T.flatMap escapeVariableChar := by
  unfold batchEscapeVariable
  simp only [show "%".toList = ['%'] from rfl, stringsReplaceAll_single,
    batchEscape_eq_flatMap, List.flatMap_assoc]
  congr 1
  funext c
  unfold escapeVariableChar
  by_cases h : c = '%'
  · subst h; simp [escapeChar]
  · simp [h]

theorem runLengths_escapeVariable (T : List Char) :
    ∀ k : Nat, Even k → ∀ n ∈ runLengths '%' k (T.flatMap escapeVariableChar), Even n := by
  induction T with
  | nil =>
    intro k hk n hn
    by_cases h0 : k = 0
    · simp [runLengths, h0] at hn
    · simp [runLengths, h0] at hn
      exact hn ▸ hk
  | cons x t ih =>
    intro k hk n hn
    rw [List.flatMap_cons] at hn
    by_cases hx : x = '%'
    · subst hx
      have h2 : escapeVariableChar '%' = ['%', '%'] := by simp [escapeVariableChar]
      rw [h2] at hn
      simp only [List.cons_append, List.nil_append, runLengths, if_true] at hn
      exact ih (k + 1 + 1) (by simpa [Nat.even_add_one] using hk) n hn
    · have h2 : escapeVariableChar x = escapeChar x := by simp [escapeVariableChar, hx]
      have hnot := percent_not_mem_escapeChar x hx
      rw [h2] at hn
      cases hl : escapeChar x with
      | nil =>
        rw [hl] at hn
        exact ih k hk n hn
      | cons y l =>
        rw [hl] at hn hnot
        have hy : y ≠ '%' := fun e => hnot (by simp [e])
        have hl2 : '%' ∉ l := fun e => hnot (by simp [e])
        simp only [List.cons_append, runLengths, hy, if_false] at hn
        rcases List.mem_append.mp hn with h | h
        · by_cases h0 : k = 0
          · simp [h0] at h
          · simp [h0] at h
            exact h ▸ hk
        · have h3 : n ∈ runLengths '%' 0 (l ++ t.flatMap escapeVariableChar) := h
          rw [runLengths_skip '%' l _ hl2] at h3
          exact ih 0 (by simp) n h3

/-- C1: in `batchEscapeVariable T` every maximal run of consecutive percent signs has
even length.  A maximal run is a block of `k` percent signs that is neither preceded
nor followed by a further percent sign. -/
theorem batchEscapeVariable_percent_runs_even (T pre post : List Char) (k : Nat)
    (h : batchEscapeVariable T = pre ++ List.replicate k '%' ++ post)
    (hpre : pre.getLast? ≠ some '%') (hpost : post.head? ≠ some '%') : Even k := by
  by_cases hk : k = 0
  · simp [hk]
  · have hmem := maximal_run_mem_runLengths '%' pre post k (by omega) hpre hpost
    rw [← h, batchEscapeVariable_eq_flatMap] at hmem
    exact runLengths_escapeVariable T 0 (by simp) k hmem

/-- Witness for C1 at the text `100%`: the run of two percent signs after `100`. -/
theorem batchEscapeVariable_percent_runs_even_witness :
    batchEscapeVariable "100%".toList = "100".toList ++ List.replicate 2 '%' ++ [] ∧ Even 2 :=
  ⟨by decide, batchEscapeVariable_percent_runs_even "100%".toList "100".toList [] 2
    (by decide) (by decide) (by decide)⟩

/-! ## Decoding quoted text -/

theorem decodeLoop_escapeChar (c : Char) (rest : List Char) :
    decodeLoop 0 ((escapeChar c).reverse ++ rest)
      = (if c = '\r' then [] else [c]) ++ decodeLoop 0 rest := by
  unfold escapeChar
  by_cases h1 : c = '^'
  · subst h1; simp [decodeLoop]
  by_cases h2 : c = '!'
  · subst h2; simp [decodeLoop]
  by_cases h3 : c = '&'
  · subst h3; simp [decodeLoop]
  by_cases h4 : c = '<'
  · subst h4; simp [decodeLoop]
  by_cases h5 : c = '>'
  · subst h5; simp [decodeLoop]
  by_cases h6 : c = '|'
  · subst h6; simp [decodeLoop]
  by_cases h7 : c = '\r'
  · subst h7; simp
  by_cases h8 : c = '\n'
  · subst h8; simp [decodeLoop]
  simp [decodeLoop, h1, h2, h3, h4, h5, h6, h7, h8, Ne.symm h1, Ne.symm h2]

theorem decodeLoop_flatMap (L rest : List Char) :
    decodeLoop 0 (L.flatMap (List.reverse ∘ escapeChar) ++ rest)
      = removeCR L ++ decodeLoop 0 rest := by
  induction L with
  | nil => simp [removeCR]
  | cons c t ih =>
    rw [List.flatMap_cons, List.append_assoc, Function.comp_apply, decodeLoop_escapeChar, ih]
    by_cases h : c = '\r'
    · simp [removeCR, h]
    · simp [removeCR, h]

theorem stripQuotes_batchQuote (T : List Char) : stripQuotes (batchQuote T) = batchEscape T := by
  simp [stripQuotes, batchQuote]

theorem batchDecode_batchQuote (T : List Char) : batchDecode (batchQuote T) = removeCR T := by
  unfold batchDecode
  rw [stripQuotes_batchQuote, batchEscape_eq_flatMap, List.reverse_flatMap]
  have h := decodeLoop_flatMap T.reverse []
  rw [List.append_nil] at h
  rw [h]
  simp [removeCR, decodeLoop, List.filter_reverse]

/-- C3: the quoted form loses nothing but carriage returns.  The decoder `batchDecode`
(strip the outer quotes, read `^^!` as `!`, `^^` as `^`, a caret before a metacharacter
as that metacharacter, `!nl!` as a line feed) returns every text without its carriage
returns, and hence two texts with the same quoted form are equal once their carriage
returns are removed. -/
theorem batchQuote_decodes :
    (∀ T : List Char, batchDecode (batchQuote T) = removeCR T) ∧
    (∀ T1 T2 : List Char, batchQuote T1 = batchQuote T2 → removeCR T1 = removeCR T2) := by
  refine ⟨batchDecode_batchQuote, ?_⟩
  intro T1 T2 h
  rw [← batchDecode_batchQuote T1, ← batchDecode_batchQuote T2, h]

/-! ## Escaped text holds no line break -/

theorem oneLine_escapeChar (c : Char) : oneLine (escapeChar c) := by
  unfold oneLine escapeChar
  split_ifs with h1 h2 h3 h4 h5 h6 h7 h8 <;> simp
  exact ⟨Ne.symm h7, Ne.symm h8⟩

theorem oneLine_batchEscape (T : List Char) : oneLine (batchEscape T) := by
  rw [batchEscape_eq_flatMap]
  constructor
  · intro h
    obtain ⟨a, _, ha⟩ := List.mem_flatMap.mp h
    exact (oneLine_escapeChar a).1 ha
  · intro h
    obtain ⟨a, _, ha⟩ := List.mem_flatMap.mp h
    exact (oneLine_escapeChar a).2 ha

theorem oneLine_batchEscapeVariable (T : List Char) : oneLine (batchEscapeVariable T) :=
  oneLine_batchEscape _

theorem oneLine_append {s t : List Char} (hs : oneLine s) (ht : oneLine t) :
    oneLine (s ++ t) := by
  unfold oneLine at *
  simp [hs.1, hs.2, ht.1, ht.2]

theorem oneLine_batchQuote (T : List Char) : oneLine (batchQuote T) := by
  unfold batchQuote
  exact oneLine_append (oneLine_append (by decide) (oneLine_batchEscape T)) (by decide)

theorem oneLine_indentPad (n : Int) : oneLine (indentPad n) := by
  unfold oneLine indentPad
  constructor <;> intro h <;> have := (List.mem_replicate.mp h).2 <;> simp at this

/-! ## `Line` and the status check -/

theorem stringsRepeat_indent (n : Int) (h : 0 ≤ n) :
    stringsRepeat "  ".toList n = some (indentPad n) := by
  have h1 : ¬ n < 0 := by omega
  have h2 : ∀ k : Nat, (List.replicate k [' ', ' ']).flatten = List.replicate (2 * k) ' ' := by
    intro k
    induction k with
    | zero => rfl
    | succ k ih => simp [List.replicate_succ, ih, Nat.mul_succ]
  simp only [stringsRepeat, h1, if_false, indentPad]
  exact congrArg some (h2 n.toNat)

namespace CmdWriter

@[simp] theorem WriteString_indent (b : CmdWriter) (s : List Char) :
    (b.WriteString s).indent = b.indent := rfl

@[simp] theorem WriteString_WriteString (b : CmdWriter) (s t : List Char) :
    (b.WriteString s).WriteString t = b.WriteString (s ++ t) := by
  simp [WriteString]

theorem Line_eq (b : CmdWriter) (text : List Char) (h : 0 ≤ b.indent) :
    b.Line text = some (b.WriteString (indentPad b.indent ++ text ++ crlf)) := by
  unfold Line
  rw [stringsRepeat_indent b.indent h]
  rfl

theorem Line_neg (b : CmdWriter) (text : List Char) (h : b.indent < 0) :
    b.Line text = none := by
  simp [Line, stringsRepeat, h]

/-- The two lines written by `checkErrorLevel` at indent `n`. -/
theorem checkErrorLevel_eq (b : CmdWriter) (h : 0 ≤ b.indent) :
    b.checkErrorLevel = some (b.WriteString
      (indentPad b.indent ++ statusCheck ++ crlf ++ (indentPad b.indent ++ crlf))) := by
  have h2 : 0 ≤ (b.WriteString (indentPad b.indent ++ statusCheck ++ crlf)).indent := h
  unfold checkErrorLevel
  rw [Line_eq b _ h]
  show (b.WriteString (indentPad b.indent ++ statusCheck ++ crlf)).Line "".toList = _
  rw [Line_eq _ _ h2]
  simp only [WriteString_WriteString, WriteString_indent, show "".toList = ([] : List Char) from rfl,
    List.append_nil]

theorem foldl_batchQuote (arguments : List (List Char)) (acc : List (List Char)) :
    arguments.foldl (fun l argument => l ++ [batchQuote argument]) acc
      = acc ++ arguments.map batchQuote := by
  induction arguments generalizing acc with
  | nil => simp
  | cons a t ih => simp [ih]

theorem Command_eq (b : CmdWriter) (command : List Char) (arguments : List (List Char))
    (h : 0 ≤ b.indent) :
    b.Command command arguments = some (b.WriteString
      (indentPad b.indent ++ stringsJoin (batchQuote command :: arguments.map batchQuote)
          " ".toList ++ crlf
        ++ (indentPad b.indent ++ statusCheck ++ crlf ++ (indentPad b.indent ++ crlf)))) := by
  have h2 : ∀ s, 0 ≤ (b.WriteString s).indent := fun _ => h
  unfold Command
  simp only [foldl_batchQuote, List.singleton_append]
  rw [Line_eq b _ h, Option.some_bind, checkErrorLevel_eq _ (h2 _)]
  simp only [WriteString_WriteString, WriteString_indent]

theorem Cd_eq (ext : Extern) (b : CmdWriter) (path : List Char) (h : 0 ≤ b.indent) :
    b.Cd ext path = some (b.WriteString
      (indentPad b.indent ++ ("cd /D ".toList ++ batchQuote (ext.ToBackslash path)) ++ crlf
        ++ (indentPad b.indent ++ statusCheck ++ crlf ++ (indentPad b.indent ++ crlf)))) := by
  have h2 : ∀ s, 0 ≤ (b.WriteString s).indent := fun _ => h
  unfold Cd
  rw [Line_eq b _ h, Option.some_bind, checkErrorLevel_eq _ (h2 _)]
  simp only [WriteString_WriteString, WriteString_indent]

end CmdWriter

/-! ## `Command`, `Cd` and the status check that follows them -/

theorem stringsJoin_cons (x : List Char) (xs : List (List Char)) (sep : List Char) :
    stringsJoin (x :: xs) sep = x ++ xs.flatMap (fun a => sep ++ a) := by
  unfold stringsJoin List.intercalate
  induction xs generalizing x with
  | nil => simp [List.intersperse]
  | cons y t ih =>
    rw [List.intersperse_cons_cons, List.flatten_cons, List.flatten_cons, ih y]
    simp

theorem oneLine_flatMap_batchQuote (arguments : List (List Char)) :
    oneLine (arguments.flatMap (fun a => " ".toList ++ batchQuote a)) := by
  induction arguments with
  | nil => exact ⟨by simp, by simp⟩
  | cons a t ih =>
    rw [List.flatMap_cons]
    exact oneLine_append (oneLine_append (by decide) (oneLine_batchQuote a)) ih

theorem oneLine_command_line (n : Int) (command : List Char) (arguments : List (List Char)) :
    oneLine (indentPad n ++ stringsJoin (batchQuote command :: arguments.map batchQuote)
      " ".toList) := by
  rw [stringsJoin_cons, List.flatMap_map]
  exact oneLine_append (oneLine_indentPad n)
    (oneLine_append (oneLine_batchQuote command) (oneLine_flatMap_batchQuote arguments))

theorem batchQuote_eq_cons (T : List Char) : batchQuote T = '"' :: (batchEscape T ++ ['"']) := rfl

theorem oneLine_statusLine (n : Int) : oneLine (indentPad n ++ statusCheck) :=
  oneLine_append (oneLine_indentPad n) (by decide)

theorem indentPad_ne_statusLine (n : Int) : indentPad n ≠ indentPad n ++ statusCheck := by
  intro h
  have h2 : indentPad n ++ [] = indentPad n ++ statusCheck := by simpa using h
  exact absurd (List.append_cancel_left h2) (by decide)

/-- Count of the status-check line among an invocation line, the status-check line
and the blank line, when the invocation line is not the status-check line. -/
theorem count_statusLine (n : Int) (inv : List Char) (h : inv ≠ indentPad n ++ statusCheck) :
    [inv, indentPad n ++ statusCheck, indentPad n].count (indentPad n ++ statusCheck) = 1 := by
  have h2 := indentPad_ne_statusLine n
  simp [List.count_cons, h, h2]

/-- C4: at indent `n >= 0`, `Command` and `Cd` each append exactly three lines ended by
CRLF: an invocation line without any other line break, the status-check line (`2n`
spaces and `IF %errorlevel% NEQ 0 exit /b %errorlevel%`), and a line of `2n` spaces;
the status-check line occurs exactly once among the three. -/
theorem Command_Cd_followed_by_status_check (ext : Extern) (b : CmdWriter)
    (command : List Char) (arguments : List (List Char)) (path : List Char)
    (h : 0 ≤ b.indent) :
    (∃ inv : List Char,
      b.Command command arguments = some (b.WriteString
        (inv ++ crlf ++ (indentPad b.indent ++ statusCheck ++ crlf
          ++ (indentPad b.indent ++ crlf)))) ∧
      oneLine inv ∧ oneLine (indentPad b.indent ++ statusCheck) ∧ oneLine (indentPad b.indent) ∧
      [inv, indentPad b.indent ++ statusCheck, indentPad b.indent].count
        (indentPad b.indent ++ statusCheck) = 1) ∧
    (∃ inv : List Char,
      b.Cd ext path = some (b.WriteString
        (inv ++ crlf ++ (indentPad b.indent ++ statusCheck ++ crlf
          ++ (indentPad b.indent ++ crlf)))) ∧
      oneLine inv ∧ oneLine (indentPad b.indent ++ statusCheck) ∧ oneLine (indentPad b.indent) ∧
      [inv, indentPad b.indent ++ statusCheck, indentPad b.indent].count
        (indentPad b.indent ++ statusCheck) = 1) := by
  constructor
  · refine ⟨_, CmdWriter.Command_eq b command arguments h, oneLine_command_line _ _ _,
      oneLine_statusLine _, oneLine_indentPad _, count_statusLine _ _ ?_⟩
    rw [stringsJoin_cons, batchQuote_eq_cons]
    intro e
    exact absurd (List.append_cancel_left e) (by simp [statusCheck])
  · refine ⟨_, CmdWriter.Cd_eq ext b path h,
      oneLine_append (oneLine_indentPad _) (oneLine_append (by decide) (oneLine_batchQuote _)),
      oneLine_statusLine _, oneLine_indentPad _, count_statusLine _ _ ?_⟩
    intro e
    exact absurd (List.append_cancel_left e) (by simp [statusCheck])

/-- Witness for C4: a writer at indent 1 running `echo a` and changing to `b/c`. -/
theorem Command_Cd_followed_by_status_check_witness :
    (0 : Int) ≤ (CmdWriter.mk [] [] 1).indent ∧
    ((∃ inv : List Char,
      (CmdWriter.mk [] [] 1).Command "echo".toList ["a".toList] = some
        ((CmdWriter.mk [] [] 1).WriteString
        (inv ++ crlf ++ (indentPad 1 ++ statusCheck ++ crlf ++ (indentPad 1 ++ crlf)))) ∧
      oneLine inv ∧ oneLine (indentPad 1 ++ statusCheck) ∧ oneLine (indentPad 1) ∧
      [inv, indentPad 1 ++ statusCheck, indentPad 1].count (indentPad 1 ++ statusCheck) = 1) ∧
    (∃ inv : List Char,
      (CmdWriter.mk [] [] 1).Cd (Extern.mk id id (fun f _ => f)) "b/c".toList = some
        ((CmdWriter.mk [] [] 1).WriteString
        (inv ++ crlf ++ (indentPad 1 ++ statusCheck ++ crlf ++ (indentPad 1 ++ crlf)))) ∧
      oneLine inv ∧ oneLine (indentPad 1 ++ statusCheck) ∧ oneLine (indentPad 1) ∧
      [inv, indentPad 1 ++ statusCheck, indentPad 1].count (indentPad 1 ++ statusCheck) = 1)) :=
  ⟨by decide, Command_Cd_followed_by_status_check (Extern.mk id id (fun f _ => f))
    (CmdWriter.mk [] [] 1) "echo".toList ["a".toList] "b/c".toList (by decide)⟩

/-- C5: at indent `n >= 0` the invocation line of `Command` is `2n` spaces, the quoted
command, then for each argument in order one space and the quoted argument, then CRLF,
followed by the status-check lines; at indent 0 the call `Command("echo", "hello &
goodbye")` appends `"echo" "hello ^& goodbye"`, CRLF, and the status-check lines. -/
theorem Command_invocation_line (b : CmdWriter) (command : List Char)
    (arguments : List (List Char)) (h : 0 ≤ b.indent) :
    b.Command command arguments = some (b.WriteString
      (indentPad b.indent ++ batchQuote command
          ++ arguments.flatMap (fun a => " ".toList ++ batchQuote a) ++ crlf
        ++ (indentPad b.indent ++ statusCheck ++ crlf ++ (indentPad b.indent ++ crlf)))) ∧
    (b.indent = 0 →
      b.Command "echo".toList ["hello & goodbye".toList] = some (b.WriteString
        ("\"echo\" \"hello ^& goodbye\"\r\n".toList
          ++ "IF %errorlevel% NEQ 0 exit /b %errorlevel%\r\n\r\n".toList))) := by
  constructor
  · rw [CmdWriter.Command_eq b command arguments h, stringsJoin_cons, List.flatMap_map]
    simp only [List.append_assoc]
  · intro h0
    rw [CmdWriter.Command_eq b _ _ h, h0]
    exact congrArg (fun s => some (b.WriteString s)) (by decide)

/-- Witness for C5: a writer at indent 2 running `git clone x`. -/
theorem Command_invocation_line_witness :
    (0 : Int) ≤ (CmdWriter.mk [] [] 2).indent ∧
    (CmdWriter.mk [] [] 2).Command "git".toList ["clone".toList, "x".toList]
      = some ((CmdWriter.mk [] [] 2).WriteString
        ("    \"git\" \"clone\" \"x\"\r\n".toList
          ++ "    IF %errorlevel% NEQ 0 exit /b %errorlevel%\r\n    \r\n".toList)) :=
  ⟨by decide, ((Command_invocation_line (CmdWriter.mk [] [] 2) "git".toList
    ["clone".toList, "x".toList] (by decide)).1).trans (by decide)⟩

/-! ## `Variable` -/

namespace CmdWriter

theorem Variable_inline_eq (ext : Extern) (b : CmdWriter) (v : BuildVariable)
    (h : 0 ≤ b.indent) (hf : v.File = false) :
    b.Variable ext v = some (b.WriteString (indentPad b.indent
      ++ ("SET ".toList ++ batchEscapeVariable v.Key ++ "=".toList
        ++ batchEscapeVariable v.Value) ++ crlf)) := by
  unfold Variable
  rw [if_neg (by simp [hf]), Line_eq b _ h]

theorem Variable_file_eq (ext : Extern) (b : CmdWriter) (v : BuildVariable)
    (h : 0 ≤ b.indent) (hf : v.File = true) :
    b.Variable ext v = some (b.WriteString
      (indentPad b.indent ++ ("md ".toList
          ++ ext.Quote (batchEscape (ext.ToBackslash b.TemporaryPath))
          ++ " 2>NUL 1>NUL".toList) ++ crlf
        ++ (indentPad b.indent ++ ("echo ".toList ++ batchEscapeVariable v.Value ++ " > ".toList
          ++ batchEscape (ext.ToBackslash (b.Absolute (pathJoin [b.TemporaryPath, v.Key]))))
          ++ crlf)
        ++ (indentPad b.indent ++ ("SET ".toList ++ batchEscapeVariable v.Key ++ "=".toList
          ++ batchEscape (ext.ToBackslash (b.Absolute (pathJoin [b.TemporaryPath, v.Key]))))
          ++ crlf))) := by
  have h2 : ∀ s, 0 ≤ (b.WriteString s).indent := fun _ => h
  unfold Variable
  rw [if_pos hf]
  simp only []
  rw [Line_eq b _ h, Option.some_bind, Line_eq _ _ (h2 _), Option.some_bind]
  simp only [WriteString_WriteString, WriteString_indent]
  rw [Line_eq _ _ (h2 _)]
  simp only [WriteString_WriteString, WriteString_indent]

end CmdWriter

/-- C8: at indent `n >= 0`, `Variable` on a variable with `File = false` appends exactly
one line, `2n` spaces, `SET `, the variable-escaped key, `=`, the variable-escaped value
and CRLF; the value is escaped after every percent sign in it has been doubled; the line
is not the status-check line.  For `FOO` with value `100%` at indent 0 the appended text
is `SET FOO=100%%` and CRLF. -/
theorem Variable_inline (ext : Extern) (b : CmdWriter) (v : BuildVariable)
    (h : 0 ≤ b.indent) (hf : v.File = false) :
    b.Variable ext v = some (b.WriteString (indentPad b.indent
      ++ ("SET ".toList ++ batchEscapeVariable v.Key ++ "=".toList
        ++ batchEscapeVariable v.Value) ++ crlf)) ∧
    oneLine (indentPad b.indent ++ ("SET ".toList ++ batchEscapeVariable v.Key ++ "=".toList
        ++ batchEscapeVariable v.Value)) ∧
    batchEscapeVariable v.Value
      = batchEscape (v.Value.flatMap (fun c => if c = '%' then ['%', '%'] else [c])) ∧
    indentPad b.indent ++ ("SET ".toList ++ batchEscapeVariable v.Key ++ "=".toList
        ++ batchEscapeVariable v.Value) ≠ indentPad b.indent ++ statusCheck ∧
    (b.indent = 0 →
      b.Variable ext (BuildVariable.mk "FOO".toList "100%".toList false)
        = some (b.WriteString "SET FOO=100%%\r\n".toList)) := by
  refine ⟨CmdWriter.Variable_inline_eq ext b v h hf, ?_, ?_, ?_, ?_⟩
  · exact oneLine_append (oneLine_indentPad _)
      (oneLine_append (oneLine_append (oneLine_append (by decide)
        (oneLine_batchEscapeVariable _)) (by decide)) (oneLine_batchEscapeVariable _))
  · unfold batchEscapeVariable
    rw [show "%".toList = ['%'] from rfl, stringsReplaceAll_single]
    rfl
  · intro e
    exact absurd (List.append_cancel_left e) (by simp [statusCheck])
  · intro h0
    rw [CmdWriter.Variable_inline_eq ext b _ h rfl, h0]
    exact congrArg (fun s => some (b.WriteString s)) (by decide)

/-- Witness for C8: the variable `A` with value `50%` at indent 1. -/
theorem Variable_inline_witness :
    (0 : Int) ≤ (CmdWriter.mk [] [] 1).indent ∧
    (BuildVariable.mk "A".toList "50%".toList false).File = false ∧
    (CmdWriter.mk [] [] 1).Variable (Extern.mk id id (fun f _ => f))
        (BuildVariable.mk "A".toList "50%".toList false)
      = some ((CmdWriter.mk [] [] 1).WriteString "  SET A=50%%\r\n".toList) :=
  ⟨by decide, rfl, ((Variable_inline (Extern.mk id id (fun f _ => f)) (CmdWriter.mk [] [] 1)
    (BuildVariable.mk "A".toList "50%".toList false) (by decide) rfl).1).trans (by decide)⟩

/-- C9, as stated, fails: a writer inside one conditional block (indent 1) writes the
three lines of a file variable with two leading spaces each, so the first line does
not start with `md ` and the appended text is not the three unindented lines of the
claim; at a negative indent nothing is appended, the call fails. -/
theorem Variable_file_not_as_stated :
    (CmdWriter.mk [] "t".toList 1).Variable Extern.sample
        (BuildVariable.mk "K".toList "x".toList true)
      = some ((CmdWriter.mk [] "t".toList 1).WriteString
        "  md \"t\" 2>NUL 1>NUL\r\n  echo x > %CD%\\t\\K\r\n  SET K=%CD%\\t\\K\r\n".toList) ∧
    (¬ ∃ md : List Char, "md ".toList.isPrefixOf md = true ∧
      (CmdWriter.mk [] "t".toList 1).Variable Extern.sample
          (BuildVariable.mk "K".toList "x".toList true)
        = some ((CmdWriter.mk [] "t".toList 1).WriteString
          (md ++ crlf ++ "echo x > %CD%\\t\\K".toList ++ crlf
            ++ "SET K=%CD%\\t\\K".toList ++ crlf))) ∧
    (CmdWriter.mk [] "t".toList (-1)).Variable Extern.sample
        (BuildVariable.mk "K".toList "x".toList true) = none := by
  have h1 : (CmdWriter.mk [] "t".toList 1).Variable Extern.sample
        (BuildVariable.mk "K".toList "x".toList true)
      = some ((CmdWriter.mk [] "t".toList 1).WriteString
        "  md \"t\" 2>NUL 1>NUL\r\n  echo x > %CD%\\t\\K\r\n  SET K=%CD%\\t\\K\r\n".toList) := by
    decide
  refine ⟨h1, ?_, by decide⟩
  rintro ⟨md, hmd, heq⟩
  rw [h1] at heq
  cases md with
  | nil => simp at hmd
  | cons c t =>
    have hc : c = 'm' := by
      simp [List.isPrefixOf] at hmd
      exact hmd.1.symm
    subst hc
    simp [CmdWriter.WriteString] at heq

/-- C9, amended: at indent `n >= 0`, `Variable` on a variable with `File = true` appends
exactly three lines, each after `2n` spaces and ended by CRLF: `md `, the quoted
escaped backslash-converted `TemporaryPath` and ` 2>NUL 1>NUL`; `echo `, the
variable-escaped value, ` > ` and the file path `F`; `SET `, the variable-escaped key,
`=` and the same `F`, where `F` is the escaped backslash-converted absolute form of
`path.Join(TemporaryPath, Key)`.  The last two hold no line break, and neither does the
first when the quoting yields none.  The value `multi\nline` is written `multi!nl!line`. -/
theorem Variable_file (ext : Extern) (b : CmdWriter) (v : BuildVariable)
    (h : 0 ≤ b.indent) (hf : v.File = true) :
    b.Variable ext v = some (b.WriteString
      (indentPad b.indent ++ ("md ".toList
          ++ ext.Quote (batchEscape (ext.ToBackslash b.TemporaryPath))
          ++ " 2>NUL 1>NUL".toList) ++ crlf
        ++ (indentPad b.indent ++ ("echo ".toList ++ batchEscapeVariable v.Value ++ " > ".toList
          ++ batchEscape (ext.ToBackslash (b.Absolute (pathJoin [b.TemporaryPath, v.Key]))))
          ++ crlf)
        ++ (indentPad b.indent ++ ("SET ".toList ++ batchEscapeVariable v.Key ++ "=".toList
          ++ batchEscape (ext.ToBackslash (b.Absolute (pathJoin [b.TemporaryPath, v.Key]))))
          ++ crlf))) ∧
    oneLine (indentPad b.indent ++ ("echo ".toList ++ batchEscapeVariable v.Value ++ " > ".toList
      ++ batchEscape (ext.ToBackslash (b.Absolute (pathJoin [b.TemporaryPath, v.Key]))))) ∧
    oneLine (indentPad b.indent ++ ("SET ".toList ++ batchEscapeVariable v.Key ++ "=".toList
      ++ batchEscape (ext.ToBackslash (b.Absolute (pathJoin [b.TemporaryPath, v.Key]))))) ∧
    (oneLine (ext.Quote (batchEscape (ext.ToBackslash b.TemporaryPath))) →
      oneLine (indentPad b.indent ++ ("md ".toList
        ++ ext.Quote (batchEscape (ext.ToBackslash b.TemporaryPath))
        ++ " 2>NUL 1>NUL".toList))) ∧
    batchEscapeVariable "multi\nline".toList = "multi!nl!line".toList := by
  refine ⟨CmdWriter.Variable_file_eq ext b v h hf, ?_, ?_, ?_, by decide⟩
  · exact oneLine_append (oneLine_indentPad _)
      (oneLine_append (oneLine_append (oneLine_append (by decide)
        (oneLine_batchEscapeVariable _)) (by decide)) (oneLine_batchEscape _))
  · exact oneLine_append (oneLine_indentPad _)
      (oneLine_append (oneLine_append (oneLine_append (by decide)
        (oneLine_batchEscapeVariable _)) (by decide)) (oneLine_batchEscape _))
  · intro hq
    exact oneLine_append (oneLine_indentPad _)
      (oneLine_append (oneLine_append (by decide) hq) (by decide))

/-- Witness for C9 amended: the variable `SECRET` with value `multi\nline` at indent 0 and
temporary path `p.tmp`. -/
theorem Variable_file_witness :
    (0 : Int) ≤ (CmdWriter.mk [] "p.tmp".toList 0).indent ∧
    (BuildVariable.mk "SECRET".toList "multi\nline".toList true).File = true ∧
    (CmdWriter.mk [] "p.tmp".toList 0).Variable Extern.sample
        (BuildVariable.mk "SECRET".toList "multi\nline".toList true)
      = some ((CmdWriter.mk [] "p.tmp".toList 0).WriteString
        ("md \"p.tmp\" 2>NUL 1>NUL\r\n".toList
          ++ "echo multi!nl!line > %CD%\\p.tmp\\SECRET\r\n".toList
          ++ "SET SECRET=%CD%\\p.tmp\\SECRET\r\n".toList)) :=
  ⟨by decide, rfl, ((Variable_file Extern.sample (CmdWriter.mk [] "p.tmp".toList 0)
    (BuildVariable.mk "SECRET".toList "multi\nline".toList true) (by decide) rfl).1).trans
      (by decide)⟩

/-! ## `path.Clean` on plain elements -/

theorem cleanLoop_leave_copy (r : Bool) (rest out : List Char) (dd : Nat)
    (hrest : atElemEnd rest = true) :
    cleanLoop r true rest out dd = cleanLoop r false rest out dd := by
  cases rest with
  | nil => simp [cleanLoop]
  | cons c t =>
    have hc : c = '/' := by simpa [atElemEnd] using hrest
    subst hc
    cases t <;> simp [cleanLoop]

theorem cleanLoop_copy (r : Bool) (rest : List Char) (dd : Nat) (hrest : atElemEnd rest = true) :
    ∀ (e out : List Char), '/' ∉ e →
      cleanLoop r true (e ++ rest) out dd = cleanLoop r false rest (e.reverse ++ out) dd := by
  intro e
  induction e with
  | nil => intro out _; simpa using cleanLoop_leave_copy r rest out dd hrest
  | cons x t ih =>
    intro out hx
    have hx1 : x ≠ '/' := fun e => hx (by simp [e])
    have hx2 : '/' ∉ t := fun e => hx (by simp [e])
    rw [List.cons_append]
    simp only [cleanLoop, hx1, if_false]
    rw [ih (x :: out) hx2]
    simp

theorem cleanLoop_enter_elem (r : Bool) (c : Char) (t rest out : List Char) (dd : Nat)
    (hplain : plainElem (c :: t)) (hrest : atElemEnd rest = true) :
    cleanLoop r false (c :: (t ++ rest)) out dd
      = cleanLoop r true (t ++ rest) (c :: cleanSep r out) dd := by
  obtain ⟨_, hslash, hdot, hdotdot⟩ := hplain
  have hc : c ≠ '/' := fun e => hslash (by simp [e])
  cases t with
  | nil =>
    have hc2 : c ≠ '.' := fun e => hdot (by simp [e])
    cases rest with
    | nil => simp [cleanLoop, hc, hc2]
    | cons c2 t2 => simp [cleanLoop, hc, hc2]
  | cons c2 t2 =>
    have hc2 : c2 ≠ '/' := fun e => hslash (by simp [e])
    cases t2 with
    | nil =>
      have hne : ¬ (c = '.' ∧ c2 = '.') := fun e => hdotdot (by simp [e.1, e.2])
      simp only [List.cons_append, List.nil_append, cleanLoop, hc, hc2, if_false, and_false]
      rw [if_neg (fun e => hne ⟨e.1, e.2.1⟩)]
    | cons c3 t3 =>
      have hc3 : c3 ≠ '/' := fun e => hslash (by simp [e])
      simp [cleanLoop, hc, hc2, atElemEnd, hc3]

theorem cleanLoop_elem (r : Bool) (e rest out : List Char) (dd : Nat)
    (hplain : plainElem e) (hrest : atElemEnd rest = true) :
    cleanLoop r false (e ++ rest) out dd
      = cleanLoop r false rest (e.reverse ++ cleanSep r out) dd := by
  cases e with
  | nil => exact absurd rfl hplain.1
  | cons c t =>
    have hslash : '/' ∉ t := fun h => hplain.2.1 (by simp [h])
    rw [List.cons_append, cleanLoop_enter_elem r c t rest out dd hplain hrest,
      cleanLoop_copy r rest dd hrest t _ hslash]
    simp

theorem atElemEnd_flatMap (es : List (List Char)) :
    atElemEnd (es.flatMap (fun e => "/".toList ++ e)) = true := by
  cases es with
  | nil => rfl
  | cons e t => simp [atElemEnd]

theorem cleanLoop_elems (dd : Nat) :
    ∀ (es : List (List Char)) (out : List Char), (∀ e ∈ es, plainElem e) → out ≠ [] →
      cleanLoop false false (es.flatMap (fun e => "/".toList ++ e)) out dd
        = (es.flatMap (fun e => "/".toList ++ e)).reverse ++ out := by
  intro es
  induction es with
  | nil => intro out _ _; simp [cleanLoop]
  | cons e t ih =>
    intro out hes hout
    have hplain : plainElem e := hes e (by simp)
    have hsep : cleanSep false out = '/' :: out := by
      cases out with
      | nil => exact absurd rfl hout
      | cons a l => simp [cleanSep]
    have hstep : cleanLoop false false
        ('/' :: (e ++ t.flatMap (fun e => "/".toList ++ e))) out dd
        = cleanLoop false false (e ++ t.flatMap (fun e => "/".toList ++ e)) out dd := by
      cases e with
      | nil => exact absurd rfl hplain.1
      | cons c l => simp [cleanLoop]
    rw [List.flatMap_cons]
    show cleanLoop false false ('/' :: (e ++ t.flatMap (fun e => "/".toList ++ e))) out dd = _
    rw [hstep, cleanLoop_elem false e _ out dd hplain (atElemEnd_flatMap t), hsep,
      ih _ (fun x hx => hes x (by simp [hx])) (by simp)]
    simp

/-- A path of plain elements joined by single slashes is left unchanged by `path.Clean`. -/
theorem pathClean_plain (e0 : List Char) (es : List (List Char)) (h0 : plainElem e0)
    (hes : ∀ e ∈ es, plainElem e) :
    pathClean (stringsJoin (e0 :: es) "/".toList) = stringsJoin (e0 :: es) "/".toList := by
  rw [stringsJoin_cons]
  cases e0 with
  | nil => exact absurd rfl h0.1
  | cons c t =>
    have hc : c ≠ '/' := fun e => h0.2.1 (by simp [e])
    have hsep : cleanSep false [] = [] := by simp [cleanSep]
    have hloop := cleanLoop_elem false (c :: t) (es.flatMap (fun e => "/".toList ++ e)) [] 0 h0
      (atElemEnd_flatMap es)
    rw [hsep, cleanLoop_elems 0 es _ hes (by simp)] at hloop
    rw [List.cons_append] at hloop ⊢
    simp only [pathClean, hc, if_false]
    rw [hloop]
    simp

/-! ## `Absolute` -/

theorem Absolute_not_abs (b : CmdWriter) (p : List Char) (h : filepathIsAbs p = false) :
    b.Absolute p = pathClean ("%CD%".toList ++ "/".toList ++ p) := by
  unfold CmdWriter.Absolute filepathJoin
  rw [if_neg (by simp [h])]
  unfold pathJoin
  rw [if_neg (by decide), stringsJoin_cons]
  simp

theorem filepathIsAbs_plain (e1 : List Char) (es : List (List Char)) (h1 : plainElem e1) :
    filepathIsAbs (stringsJoin (e1 :: es) "/".toList) = false := by
  rw [stringsJoin_cons]
  cases e1 with
  | nil => exact absurd rfl h1.1
  | cons c t =>
    have hc : c ≠ '/' := fun e => h1.2.1 (by simp [e])
    simp [filepathIsAbs, List.isPrefixOf, Ne.symm hc]

/-! ### Paths without a `..` element -/

theorem cleanLoop_skip_slash (r : Bool) (rest out : List Char) (dd : Nat) :
    cleanLoop r false ('/' :: rest) out dd = cleanLoop r false rest out dd := by
  cases rest <;> simp [cleanLoop]

theorem cleanLoop_skip_dot (r : Bool) (rest out : List Char) (dd : Nat)
    (hrest : atElemEnd rest = true) :
    cleanLoop r false ('.' :: rest) out dd = cleanLoop r false rest out dd := by
  cases rest with
  | nil => simp [cleanLoop]
  | cons c t =>
    have hc : c = '/' := by simpa [atElemEnd] using hrest
    subst hc
    simp [cleanLoop]

theorem elem_cases (e : List Char) (hslash : '/' ∉ e) (hdd : e ≠ "..".toList) :
    e = [] ∨ e = ".".toList ∨ plainElem e := by
  by_cases h1 : e = []
  · exact Or.inl h1
  · by_cases h2 : e = ".".toList
    · exact Or.inr (Or.inl h2)
    · exact Or.inr (Or.inr ⟨h1, hslash, h2, hdd⟩)

/-- The main loop of `path.Clean` on elements without `..`, each after a slash: the empty
and the `.` elements are dropped, the others are copied after one slash each. -/
theorem cleanLoop_kept_elems (dd : Nat) :
    ∀ (es : List (List Char)) (out : List Char),
      (∀ e ∈ es, '/' ∉ e ∧ e ≠ "..".toList) → out ≠ [] →
      cleanLoop false false (es.flatMap (fun e => "/".toList ++ e)) out dd
        = ((es.filter keptElem).flatMap (fun e => "/".toList ++ e)).reverse ++ out := by
  intro es
  induction es with
  | nil => intro out _ _; simp [cleanLoop]
  | cons e t ih =>
    intro out hes hout
    have het : ∀ x ∈ t, '/' ∉ x ∧ x ≠ "..".toList := fun x hx => hes x (by simp [hx])
    rw [List.flatMap_cons]
    show cleanLoop false false ('/' :: (e ++ t.flatMap (fun e => "/".toList ++ e))) out dd = _
    rw [cleanLoop_skip_slash]
    rcases elem_cases e (hes e (by simp)).1 (hes e (by simp)).2 with h | h | h
    · subst h
      rw [List.nil_append, ih out het hout]
      rfl
    · subst h
      show cleanLoop false false ('.' :: t.flatMap (fun e => "/".toList ++ e)) out dd = _
      rw [cleanLoop_skip_dot false _ out dd (atElemEnd_flatMap t), ih out het hout]
      rfl
    · have hsep : cleanSep false out = '/' :: out := by
        cases out with
        | nil => exact absurd rfl hout
        | cons a l => simp [cleanSep]
      have hkept : keptElem e = true := by
        unfold keptElem
        exact decide_eq_true ⟨h.1, h.2.2.1⟩
      rw [cleanLoop_elem false e _ out dd h (atElemEnd_flatMap t), hsep,
        ih _ het (by simp), List.filter_cons, if_pos hkept, List.flatMap_cons]
      simp

theorem pathClean_kept_elems (es : List (List Char))
    (hes : ∀ e ∈ es, '/' ∉ e ∧ e ≠ "..".toList) :
    pathClean ("%CD%".toList ++ es.flatMap (fun e => "/".toList ++ e))
      = "%CD%".toList ++ (es.filter keptElem).flatMap (fun e => "/".toList ++ e) := by
  have hloop := cleanLoop_elem false "%CD%".toList (es.flatMap (fun e => "/".toList ++ e)) [] 0
    (by decide) (atElemEnd_flatMap es)
  have hsep : cleanSep false [] = [] := by simp [cleanSep]
  rw [hsep, cleanLoop_kept_elems 0 es _ hes (by decide)] at hloop
  have hform : "%CD%".toList ++ es.flatMap (fun e => "/".toList ++ e)
      = '%' :: ("CD%".toList ++ es.flatMap (fun e => "/".toList ++ e)) := rfl
  rw [hform] at hloop ⊢
  simp only [pathClean, show ¬ ('%' = '/') by decide, if_false]
  rw [hloop]
  simp

theorem pathElems_ne_nil (p : List Char) : pathElems p ≠ [] := by
  cases p with
  | nil => simp [pathElems]
  | cons c t =>
    unfold pathElems
    split_ifs
    · simp
    · split <;> simp

theorem flatMap_pathElems (p : List Char) :
    (pathElems p).flatMap (fun e => "/".toList ++ e) = "/".toList ++ p := by
  induction p with
  | nil => rfl
  | cons c t ih =>
    unfold pathElems
    by_cases hc : c = '/'
    · subst hc
      rw [if_pos rfl, List.flatMap_cons, ih]
      rfl
    · rw [if_neg hc]
      cases hp : pathElems t with
      | nil => exact absurd hp (pathElems_ne_nil t)
      | cons e es =>
        rw [hp] at ih
        simp only [List.flatMap_cons] at ih ⊢
        have h2 : e ++ es.flatMap (fun e => "/".toList ++ e) = t := by
          have h3 : '/' :: (e ++ es.flatMap (fun e => "/".toList ++ e)) = '/' :: t := by
            simpa using ih
          exact List.tail_eq_of_cons_eq h3
        show '/' :: (c :: e ++ es.flatMap (fun e => "/".toList ++ e)) = '/' :: c :: t
        rw [List.cons_append, h2]

theorem no_slash_pathElems (p : List Char) : ∀ e ∈ pathElems p, '/' ∉ e := by
  induction p with
  | nil => intro e he; simp [pathElems] at he; simp [he]
  | cons c t ih =>
    intro e he
    unfold pathElems at he
    by_cases hc : c = '/'
    · rw [if_pos hc] at he
      rcases List.mem_cons.mp he with h | h
      · simp [h]
      · exact ih e h
    · rw [if_neg hc] at he
      cases hp : pathElems t with
      | nil => exact absurd hp (pathElems_ne_nil t)
      | cons e1 es =>
        rw [hp] at he ih
        rcases List.mem_cons.mp he with h | h
        · rw [h]
          have := ih e1 (by simp)
          simp [Ne.symm hc, this]
        · exact ih e (by simp [h])

/-- `Absolute` on a path that is not absolute and has no `..` element. -/
theorem Absolute_without_dotdot (b : CmdWriter) (p : List Char)
    (hrel : filepathIsAbs p = false) (hdd : "..".toList ∉ pathElems p) :
    b.Absolute p
      = "%CD%".toList ++ ((pathElems p).filter keptElem).flatMap (fun e => "/".toList ++ e) := by
  rw [Absolute_not_abs b p hrel, List.append_assoc, ← flatMap_pathElems p]
  exact pathClean_kept_elems (pathElems p)
    (fun e he => ⟨no_slash_pathElems p e he, fun h => hdd (h ▸ he)⟩)

/-- C10, as stated, fails: `filepath.Join` normalises the joined path.  The empty path,
which is not absolute, gives `%CD%` with no separator after it; `a/` gives `%CD%/a`, which
does not end with the given path; `a//b` gives `%CD%/a/b`. -/
theorem Absolute_not_concatenation :
    filepathIsAbs "".toList = false ∧
    (CmdWriter.mk [] [] 0).Absolute "".toList = "%CD%".toList ∧
    (CmdWriter.mk [] [] 0).Absolute "".toList ≠ "%CD%".toList ++ "/".toList ++ "".toList ∧
    filepathIsAbs "a/".toList = false ∧
    (CmdWriter.mk [] [] 0).Absolute "a/".toList = "%CD%/a".toList ∧
    (CmdWriter.mk [] [] 0).Absolute "a/".toList ≠ "%CD%".toList ++ "/".toList ++ "a/".toList ∧
    "a/".toList.isSuffixOf ((CmdWriter.mk [] [] 0).Absolute "a/".toList) = false ∧
    filepathIsAbs "a//b".toList = false ∧
    (CmdWriter.mk [] [] 0).Absolute "a//b".toList = "%CD%/a/b".toList ∧
    "a//b".toList.isSuffixOf ((CmdWriter.mk [] [] 0).Absolute "a//b".toList) = false := by
  decide

/-- C10, amended: for a path `p` made of one or more plain elements (not empty, not `.`,
not `..`) joined by single slashes, `p` is not absolute and `Absolute p` is `%CD%`, one
slash, and `p` itself; for every path that is not absolute and has no `..` element,
`Absolute p` is `%CD%` followed, for each element of `p` that is neither empty nor `.`, by
one slash and that element, so it begins with `%CD%`; an absolute path is returned
unchanged.  Nothing is said of a path that is not absolute and has a `..` element. -/
theorem Absolute_of_plain_path (b : CmdWriter) (e1 : List Char) (es : List (List Char))
    (h1 : plainElem e1) (hes : ∀ e ∈ es, plainElem e) :
    filepathIsAbs (stringsJoin (e1 :: es) "/".toList) = false ∧
    b.Absolute (stringsJoin (e1 :: es) "/".toList)
      = "%CD%".toList ++ "/".toList ++ stringsJoin (e1 :: es) "/".toList ∧
    (∀ p : List Char, filepathIsAbs p = false → "..".toList ∉ pathElems p →
      b.Absolute p = "%CD%".toList
        ++ ((pathElems p).filter keptElem).flatMap (fun e => "/".toList ++ e)) ∧
    (∀ p : List Char, filepathIsAbs p = true → b.Absolute p = p) := by
  refine ⟨filepathIsAbs_plain e1 es h1, ?_, Absolute_without_dotdot b, ?_⟩
  · rw [Absolute_not_abs b _ (filepathIsAbs_plain e1 es h1)]
    have hjoin : "%CD%".toList ++ "/".toList ++ stringsJoin (e1 :: es) "/".toList
        = stringsJoin ("%CD%".toList :: e1 :: es) "/".toList := by
      rw [stringsJoin_cons "%CD%".toList, stringsJoin_cons e1]
      simp
    rw [hjoin]
    exact pathClean_plain "%CD%".toList (e1 :: es) (by decide)
      (fun e he => by
        rcases List.mem_cons.mp he with h | h
        · exact h ▸ h1
        · exact hes e h)
  · intro p hp
    simp [CmdWriter.Absolute, hp]

/-- Witness for C10 amended: the relative path `relative/path`. -/
theorem Absolute_of_plain_path_witness :
    plainElem "relative".toList ∧ (∀ e ∈ ["path".toList], plainElem e) ∧
    (CmdWriter.mk [] [] 0).Absolute "relative/path".toList = "%CD%/relative/path".toList :=
  ⟨by decide, by decide, (Absolute_of_plain_path (CmdWriter.mk [] [] 0) "relative".toList
    ["path".toList] (by decide) (by decide)).2.1⟩

/-! ## One call: success, failure and the change of the indent -/

namespace CmdWriter

@[simp] theorem WriteString_TemporaryPath (b : CmdWriter) (s : List Char) :
    (b.WriteString s).TemporaryPath = b.TemporaryPath := rfl

@[simp] theorem WriteString_Buffer (b : CmdWriter) (s : List Char) :
    (b.WriteString s).Buffer = b.Buffer ++ s := rfl

theorem checkErrorLevel_neg (b : CmdWriter) (h : b.indent < 0) : b.checkErrorLevel = none := by
  simp [checkErrorLevel, Line_neg b _ h]

end CmdWriter

theorem WriteString_eq_after (b : CmdWriter) (s : List Char) :
    b.WriteString s = b.after s 0 := by
  simp [CmdWriter.WriteString, CmdWriter.after]

theorem some_after_zero {b : CmdWriter} {x : Option CmdWriter} {s : List Char}
    (h : x = some (b.WriteString s)) : x = some (b.after s 0) := by
  rw [h, WriteString_eq_after]

theorem Line_then_Indent (b : CmdWriter) (text : List Char) (h : 0 ≤ b.indent) :
    (b.Line text).map CmdWriter.Indent
      = some (b.after (indentPad b.indent ++ text ++ crlf) 1) := by
  rw [CmdWriter.Line_eq b text h]
  rfl

theorem Unindent_Line (b : CmdWriter) (text : List Char) (h : 1 ≤ b.indent) :
    b.Unindent.Line text = some (b.after (indentPad (b.indent - 1) ++ text ++ crlf) (-1)) := by
  have h2 : 0 ≤ b.Unindent.indent := by
    show 0 ≤ b.indent - 1
    omega
  rw [CmdWriter.Line_eq _ text h2]
  rfl

theorem Unindent_Line_Indent (b : CmdWriter) (text : List Char) (h : 1 ≤ b.indent) :
    (b.Unindent.Line text).map CmdWriter.Indent
      = some (b.after (indentPad (b.indent - 1) ++ text ++ crlf) 0) := by
  rw [Unindent_Line b text h]
  simp [CmdWriter.after, CmdWriter.Indent]

/-- At a non-negative indent (at least 1 for `Else` and `EndIf`) a call succeeds,
appends to the buffer, keeps the temporary path and moves the indent by its delta. -/
theorem Op.apply_nonneg (ext : Extern) (op : Op) (b : CmdWriter) (h : 0 ≤ b.indent)
    (h1 : op.needsOpenBlock = true → 1 ≤ b.indent) :
    ∃ s : List Char, op.apply ext b = some (b.after s op.indentDelta) := by
  cases op with
  | Line text => exact ⟨_, some_after_zero (CmdWriter.Line_eq b text h)⟩
  | CheckForErrors =>
    exact ⟨_, some_after_zero (CmdWriter.checkErrorLevel_eq b h)⟩
  | Command command arguments =>
    exact ⟨_, some_after_zero (CmdWriter.Command_eq b command arguments h)⟩
  | Variable v =>
    cases hf : v.File with
    | false =>
      exact ⟨_, some_after_zero (CmdWriter.Variable_inline_eq ext b v h hf)⟩
    | true =>
      exact ⟨_, some_after_zero (CmdWriter.Variable_file_eq ext b v h hf)⟩
  | IfDirectory path => exact ⟨_, Line_then_Indent b _ h⟩
  | IfFile path => exact ⟨_, Line_then_Indent b _ h⟩
  | Else => exact ⟨_, Unindent_Line_Indent b _ (h1 rfl)⟩
  | EndIf => exact ⟨_, Unindent_Line b _ (h1 rfl)⟩
  | Cd path => exact ⟨_, some_after_zero (CmdWriter.Cd_eq ext b path h)⟩
  | RmDir path => exact ⟨_, some_after_zero (CmdWriter.Line_eq b _ h)⟩
  | RmFile path => exact ⟨_, some_after_zero (CmdWriter.Line_eq b _ h)⟩
  | Print format arguments =>
    exact ⟨_, some_after_zero (CmdWriter.Line_eq b _ h)⟩
  | Notice format arguments =>
    exact ⟨_, some_after_zero (CmdWriter.Line_eq b _ h)⟩
  | Warning format arguments =>
    exact ⟨_, some_after_zero (CmdWriter.Line_eq b _ h)⟩
  | Error format arguments =>
    exact ⟨_, some_after_zero (CmdWriter.Line_eq b _ h)⟩
  | EmptyLine => exact ⟨_, some_after_zero (CmdWriter.Line_eq b _ h)⟩

theorem CmdWriter.EndIf_fails (b : CmdWriter) (h : b.indent < 1) : b.EndIf = none := by
  have h2 : b.Unindent.indent < 0 := by
    show b.indent - 1 < 0
    omega
  simp [CmdWriter.EndIf, CmdWriter.Line_neg _ _ h2]

theorem CmdWriter.Else_fails (b : CmdWriter) (h : b.indent < 1) : b.Else = none := by
  have h2 : b.Unindent.indent < 0 := by
    show b.indent - 1 < 0
    omega
  simp [CmdWriter.Else, CmdWriter.Line_neg _ _ h2]

/-- At a negative indent every call fails. -/
theorem Op.apply_neg (ext : Extern) (op : Op) (b : CmdWriter) (h : b.indent < 0) :
    op.apply ext b = none := by
  cases op with
  | Line text => exact CmdWriter.Line_neg b _ h
  | CheckForErrors => exact CmdWriter.checkErrorLevel_neg b h
  | Command command arguments => simp [Op.apply, CmdWriter.Command, CmdWriter.Line_neg b _ h]
  | Variable v =>
    cases hf : v.File <;> simp [Op.apply, CmdWriter.Variable, hf, CmdWriter.Line_neg b _ h]
  | IfDirectory path => simp [Op.apply, CmdWriter.IfDirectory, CmdWriter.Line_neg b _ h]
  | IfFile path => simp [Op.apply, CmdWriter.IfFile, CmdWriter.Line_neg b _ h]
  | Else => exact CmdWriter.Else_fails b (by omega)
  | EndIf => exact CmdWriter.EndIf_fails b (by omega)
  | Cd path => simp [Op.apply, CmdWriter.Cd, CmdWriter.Line_neg b _ h]
  | RmDir path => exact CmdWriter.Line_neg b _ h
  | RmFile path => exact CmdWriter.Line_neg b _ h
  | Print format arguments => exact CmdWriter.Line_neg b _ h
  | Notice format arguments => exact CmdWriter.Line_neg b _ h
  | Warning format arguments => exact CmdWriter.Line_neg b _ h
  | Error format arguments => exact CmdWriter.Line_neg b _ h
  | EmptyLine => exact CmdWriter.Line_neg b _ h

/-- An `Else` or `EndIf` at an indent below 1 fails. -/
theorem Op.apply_unopened (ext : Extern) (op : Op) (b : CmdWriter)
    (hop : op.needsOpenBlock = true) (h : b.indent < 1) : op.apply ext b = none := by
  cases op with
  | Else => exact CmdWriter.Else_fails b h
  | EndIf => exact CmdWriter.EndIf_fails b h
  | _ => simp [Op.needsOpenBlock] at hop

/-- A call that succeeds was issued at a non-negative indent (at least 1 for `Else` and
`EndIf`); it appended to the buffer, kept the temporary path and moved the indent by its
delta. -/
theorem Op.apply_some (ext : Extern) (op : Op) (b b' : CmdWriter)
    (h : op.apply ext b = some b') :
    0 ≤ b.indent ∧ (op.needsOpenBlock = true → 1 ≤ b.indent) ∧
    ∃ s : List Char, b' = b.after s op.indentDelta := by
  have h0 : 0 ≤ b.indent := by
    by_contra hneg
    rw [Op.apply_neg ext op b (by omega)] at h
    exact absurd h (by simp)
  have h1 : op.needsOpenBlock = true → 1 ≤ b.indent := by
    intro hop
    by_contra hneg
    rw [Op.apply_unopened ext op b hop (by omega)] at h
    exact absurd h (by simp)
  obtain ⟨s, hs⟩ := Op.apply_nonneg ext op b h0 h1
  rw [hs] at h
  exact ⟨h0, h1, s, (Option.some.inj h).symm⟩

/-! ## Sequences of calls and the nesting depth -/

theorem nestingDepth_step (op : Op) (d d2 : Nat) (rest : List Op)
    (h : nestingDepth d (op :: rest) = some d2) :
    (op.needsOpenBlock = true → 1 ≤ d) ∧
    ∃ d1 : Nat, (d1 : Int) = d + op.indentDelta ∧ nestingDepth d1 rest = some d2 := by
  unfold nestingDepth at h
  by_cases hc : op.needsOpenBlock = true ∧ d = 0
  · rw [if_pos hc] at h
    exact absurd h (by simp)
  · rw [if_neg hc] at h
    have hd : op.needsOpenBlock = true → 1 ≤ d := by
      intro hop
      by_contra hd
      exact hc ⟨hop, by omega⟩
    refine ⟨hd, _, ?_, h⟩
    unfold Op.indentDelta
    cases op <;> simp [Op.opensBlock, Op.closesBlock]
    have := hd rfl
    omega

/-- A sequence of calls whose nesting never drops below zero, started at an indent that
is at least the starting depth, succeeds; the final indent is the starting indent moved
by the change of depth, the temporary path is kept and the buffer is extended. -/
theorem runOps_nested (ext : Extern) :
    ∀ (ops : List Op) (d d2 : Nat) (b : CmdWriter), nestingDepth d ops = some d2 →
      (d : Int) ≤ b.indent →
      ∃ b2 : CmdWriter, runOps ext ops b = some b2 ∧ b2.indent = b.indent - d + d2 ∧
        b2.TemporaryPath = b.TemporaryPath ∧ b.Buffer <+: b2.Buffer := by
  intro ops
  induction ops with
  | nil =>
    intro d d2 b h _
    have hd : d = d2 := by simpa [nestingDepth] using h
    subst hd
    exact ⟨b, rfl, by omega, rfl, List.prefix_refl _⟩
  | cons op rest ih =>
    intro d d2 b h hb
    obtain ⟨hopen, d1, hd1, hrest⟩ := nestingDepth_step op d d2 rest h
    have h0 : 0 ≤ b.indent := by omega
    have h1 : op.needsOpenBlock = true → 1 ≤ b.indent := fun hop => by
      have := hopen hop
      omega
    obtain ⟨s, hs⟩ := Op.apply_nonneg ext op b h0 h1
    have hb1 : (d1 : Int) ≤ (b.after s op.indentDelta).indent := by
      show (d1 : Int) ≤ b.indent + op.indentDelta
      omega
    obtain ⟨b2, hrun, hind, htmp, hbuf⟩ := ih d1 d2 (b.after s op.indentDelta) hrest hb1
    refine ⟨b2, ?_, ?_, ?_, ?_⟩
    · simp [runOps, hs, hrun]
    · rw [hind]
      show b.indent + op.indentDelta - d1 + d2 = b.indent - d + d2
      omega
    · rw [htmp]; rfl
    · exact List.IsPrefix.trans (List.prefix_append _ _) hbuf

/-- Whenever a sequence of calls with a defined nesting depth succeeds, the indent has
moved by the change of depth. -/
theorem runOps_indent (ext : Extern) :
    ∀ (ops : List Op) (d d2 : Nat) (b b2 : CmdWriter), nestingDepth d ops = some d2 →
      runOps ext ops b = some b2 → b2.indent = b.indent - d + d2 := by
  intro ops
  induction ops with
  | nil =>
    intro d d2 b b2 h hrun
    have hd : d = d2 := by simpa [nestingDepth] using h
    have hb : b = b2 := by simpa [runOps] using hrun
    subst hd hb
    omega
  | cons op rest ih =>
    intro d d2 b b2 h hrun
    obtain ⟨_, d1, hd1, hrest⟩ := nestingDepth_step op d d2 rest h
    cases hap : op.apply ext b with
    | none => simp [runOps, hap] at hrun
    | some b1 =>
      obtain ⟨_, _, s, hs⟩ := Op.apply_some ext op b b1 hap
      have hrun1 : runOps ext rest b1 = some b2 := by simpa [runOps, hap] using hrun
      rw [ih d1 d2 b1 b2 hrest hrun1, hs]
      show b.indent + op.indentDelta - d1 + d2 = b.indent - d + d2
      omega

/-- C6: for a balanced sequence of `IfDirectory`/`IfFile`, `Else` and `EndIf` calls
(every `EndIf` closes an earlier open, every `Else` lies inside an open block, and the
depth is back at zero at the end), interleaved with any other calls, the indent after
the sequence equals the indent before it, whatever the starting indent; and from a
non-negative starting indent the sequence does run to its end. -/
theorem balanced_sequence_restores_indent (ext : Extern) (ops : List Op) (b : CmdWriter)
    (hbal : nestingDepth 0 ops = some 0) :
    (∀ b2 : CmdWriter, runOps ext ops b = some b2 → b2.indent = b.indent) ∧
    (0 ≤ b.indent → ∃ b2 : CmdWriter, runOps ext ops b = some b2 ∧ b2.indent = b.indent) := by
  constructor
  · intro b2 hrun
    have := runOps_indent ext ops 0 0 b b2 hbal hrun
    simpa using this
  · intro h0
    obtain ⟨b2, hrun, hind, _, _⟩ := runOps_nested ext ops 0 0 b hbal (by simpa using h0)
    exact ⟨b2, hrun, by simpa using hind⟩

/-- Witness for C6: a block with an else branch around a `Cd`, started at indent 3. -/
theorem balanced_sequence_restores_indent_witness :
    nestingDepth 0 [Op.IfDirectory "a".toList, Op.Cd "a".toList, Op.Else, Op.EmptyLine,
      Op.IfFile "f".toList, Op.EndIf, Op.EndIf] = some 0 ∧
    ∃ b2 : CmdWriter, runOps Extern.sample [Op.IfDirectory "a".toList, Op.Cd "a".toList,
      Op.Else, Op.EmptyLine, Op.IfFile "f".toList, Op.EndIf, Op.EndIf]
        (CmdWriter.mk [] [] 3) = some b2 ∧ b2.indent = 3 :=
  ⟨by decide, (balanced_sequence_restores_indent Extern.sample [Op.IfDirectory "a".toList,
    Op.Cd "a".toList, Op.Else, Op.EmptyLine, Op.IfFile "f".toList, Op.EndIf, Op.EndIf]
    (CmdWriter.mk [] [] 3) (by decide)).2 (by decide)⟩

/-! ## Nesting depth by counting opens and closes -/

theorem opensIn_cons (op : Op) (l : List Op) :
    opensIn (op :: l) = opensIn l + if op.opensBlock = true then 1 else 0 := by
  simp [opensIn, List.countP_cons]

theorem closesIn_cons (op : Op) (l : List Op) :
    closesIn (op :: l) = closesIn l + if op.closesBlock = true then 1 else 0 := by
  simp [closesIn, List.countP_cons]

theorem Op.needsOpenBlock_cases (op : Op) (h : op.needsOpenBlock = true) :
    op = Op.Else ∨ op = Op.EndIf := by
  cases op <;> simp [Op.needsOpenBlock] at h ⊢

/-- When every prefix has at least as many opens (plus the starting depth) as closes, and
every `Else` comes at a positive depth, the nesting depth is defined and is the starting
depth plus the opens minus the closes. -/
theorem nestingDepth_of_counts :
    ∀ (ops : List Op) (d : Nat),
      (∀ k : Nat, closesIn (ops.take k) ≤ d + opensIn (ops.take k)) →
      (∀ k : Nat, ops[k]? = some Op.Else → closesIn (ops.take k) < d + opensIn (ops.take k)) →
      nestingDepth d ops = some (d + opensIn ops - closesIn ops) := by
  intro ops
  induction ops with
  | nil => intro d _ _; simp [nestingDepth, opensIn, closesIn]
  | cons op rest ih =>
    intro d h1 h2
    have hpos : op.needsOpenBlock = true → 1 ≤ d := by
      intro hop
      rcases Op.needsOpenBlock_cases op hop with h | h
      · have := h2 0 (by simp [h])
        simpa [closesIn, opensIn] using this
      · have := h1 1
        simpa [h, closesIn, opensIn, Op.closesBlock, Op.opensBlock] using this
    have hcond : ¬ (op.needsOpenBlock = true ∧ d = 0) := fun hc => by
      have := hpos hc.1
      omega
    unfold nestingDepth
    rw [if_neg hcond]
    have h1s : ∀ k : Nat, closesIn (rest.take k) + (if op.closesBlock = true then 1 else 0)
        ≤ d + (opensIn (rest.take k) + if op.opensBlock = true then 1 else 0) := by
      intro k
      have := h1 (k + 1)
      rwa [List.take_succ_cons, closesIn_cons, opensIn_cons] at this
    have h2s : ∀ k : Nat, rest[k]? = some Op.Else →
        closesIn (rest.take k) + (if op.closesBlock = true then 1 else 0)
          < d + (opensIn (rest.take k) + if op.opensBlock = true then 1 else 0) := by
      intro k hk
      have := h2 (k + 1) (by simpa using hk)
      rwa [List.take_succ_cons, closesIn_cons, opensIn_cons] at this
    have hexcl : op.opensBlock = true → op.closesBlock = false := by
      cases op <;> simp [Op.opensBlock, Op.closesBlock]
    have hcl : op.closesBlock = true → op.needsOpenBlock = true := by
      cases op <;> simp [Op.needsOpenBlock, Op.closesBlock]
    have hall := h1s rest.length
    rw [List.take_length] at hall
    rw [opensIn_cons, closesIn_cons]
    by_cases ho : op.opensBlock = true
    · have hc := hexcl ho
      simp only [ho, hc, if_true, Bool.false_eq_true, if_false, Nat.add_zero] at h1s h2s hall ⊢
      rw [ih (d + 1) (fun k => by have := h1s k; omega) (fun k hk => by have := h2s k hk; omega)]
      congr 1
      omega
    · have ho2 : op.opensBlock = false := by simpa using ho
      by_cases hc : op.closesBlock = true
      · have hd := hpos (hcl hc)
        simp only [ho2, hc, if_true, Bool.false_eq_true, if_false, Nat.add_zero]
          at h1s h2s hall ⊢
        rw [ih (d - 1) (fun k => by have := h1s k; omega)
          (fun k hk => by have := h2s k hk; omega)]
        congr 1
        omega
      · have hc2 : op.closesBlock = false := by simpa using hc
        simp only [ho2, hc2, Bool.false_eq_true, if_false, Nat.add_zero] at h1s h2s hall ⊢
        rw [ih d (fun k => by have := h1s k; omega) (fun k hk => by have := h2s k hk; omega)]

theorem runOps_append (ext : Extern) (xs ys : List Op) (b : CmdWriter) :
    runOps ext (xs ++ ys) b = (runOps ext xs b).bind (runOps ext ys) := by
  induction xs generalizing b with
  | nil => simp [runOps]
  | cons op rest ih =>
    cases hap : op.apply ext b with
    | none => simp [runOps, hap]
    | some b1 => simp [runOps, hap, ih]

/-- Every prefix of a well-nested sequence is well nested. -/
theorem nestingDepth_take (ops : List Op) (k : Nat)
    (h1 : ∀ j : Nat, closesIn (ops.take j) ≤ opensIn (ops.take j))
    (h2 : ∀ j : Nat, ops[j]? = some Op.Else → closesIn (ops.take j) < opensIn (ops.take j)) :
    nestingDepth 0 (ops.take k)
      = some (opensIn (ops.take k) - closesIn (ops.take k)) := by
  have h := nestingDepth_of_counts (ops.take k) 0
    (fun j => by rw [List.take_take]; simpa using h1 (min j k))
    (fun j hj => by
      rw [List.getElem?_take] at hj
      split at hj
      · rename_i hlt
        rw [List.take_take, Nat.min_eq_left (Nat.le_of_lt hlt)]
        simpa using h2 j hj
      · simp at hj)
  simpa using h

/-- A fresh writer exists and is at indent 0. -/
theorem newCmdWriter_indent (dir : List Char) :
    ∃ w : CmdWriter, newCmdWriter dir = some w ∧ w.indent = 0 := by
  have h : ∀ (w : CmdWriter) (s : List Char), w.indent = 0 → (0 : Int) ≤ (w.WriteString s).indent :=
    fun w s hw => by simp [hw]
  unfold newCmdWriter
  simp only []
  rw [CmdWriter.Line_eq _ _ (Int.le_refl 0), Option.some_bind,
    CmdWriter.Line_eq _ _ (h _ _ rfl), Option.some_bind]
  simp only [CmdWriter.WriteString_WriteString]
  rw [CmdWriter.Line_eq _ _ (h _ _ rfl), Option.some_bind]
  simp only [CmdWriter.WriteString_WriteString]
  rw [CmdWriter.Line_eq _ _ (h _ _ rfl)]
  exact ⟨_, rfl, rfl⟩

/-- C7: from a writer at indent 0, a sequence of calls in which every prefix has at least
as many `IfDirectory`/`IfFile` calls as `EndIf` calls and every `Else` comes at nesting
depth at least 1 runs without reaching the failure of `strings.Repeat`: every prefix
succeeds and leaves an indent equal to its nesting depth, which is not negative.
Conversely, at indent 0 `Unindent` gives -1, `strings.Repeat` fails on it, and so `EndIf`
and `Else` fail, in particular after any prefix that is back at depth 0.  The writer made
by `newCmdWriter` is at indent 0. -/
theorem nested_sequence_keeps_indent_nonneg (ext : Extern) (ops : List Op) (b : CmdWriter)
    (hb : b.indent = 0)
    (h1 : ∀ k : Nat, closesIn (ops.take k) ≤ opensIn (ops.take k))
    (h2 : ∀ k : Nat, ops[k]? = some Op.Else → closesIn (ops.take k) < opensIn (ops.take k)) :
    (∀ k : Nat, ∃ b2 : CmdWriter, runOps ext (ops.take k) b = some b2 ∧
      b2.indent = (opensIn (ops.take k) : Int) - closesIn (ops.take k) ∧ 0 ≤ b2.indent) ∧
    (∀ w : CmdWriter, w.indent = 0 →
      w.Unindent.indent = -1 ∧ stringsRepeat "  ".toList w.Unindent.indent = none ∧
      w.EndIf = none ∧ w.Else = none) ∧
    (∀ k : Nat, opensIn (ops.take k) = closesIn (ops.take k) →
      runOps ext (ops.take k ++ [Op.EndIf]) b = none ∧
      runOps ext (ops.take k ++ [Op.Else]) b = none) ∧
    (∀ dir : List Char, ∃ w : CmdWriter, newCmdWriter dir = some w ∧ w.indent = 0) := by
  have hrun : ∀ k : Nat, ∃ b2 : CmdWriter, runOps ext (ops.take k) b = some b2 ∧
      b2.indent = (opensIn (ops.take k) : Int) - closesIn (ops.take k) ∧ 0 ≤ b2.indent := by
    intro k
    obtain ⟨b2, hr, hind, _, _⟩ := runOps_nested ext (ops.take k) 0 _ b
      (nestingDepth_take ops k h1 h2) (by simp [hb])
    have hle := h1 k
    have hind2 : b2.indent = (opensIn (ops.take k) : Int) - closesIn (ops.take k) := by
      rw [hind, hb]
      omega
    exact ⟨b2, hr, hind2, by omega⟩
  refine ⟨hrun, ?_, ?_, newCmdWriter_indent⟩
  · intro w hw
    have hu : w.Unindent.indent = -1 := by
      show w.indent - 1 = -1
      omega
    refine ⟨hu, ?_, CmdWriter.EndIf_fails w (by omega), CmdWriter.Else_fails w (by omega)⟩
    rw [hu]
    rfl
  · intro k hk
    obtain ⟨b2, hr, hind, _⟩ := hrun k
    have h0 : b2.indent < 1 := by
      rw [hind, hk]
      omega
    constructor
    · rw [runOps_append, hr]
      simp [runOps, Op.apply, CmdWriter.EndIf_fails b2 h0]
    · rw [runOps_append, hr]
      simp [runOps, Op.apply, CmdWriter.Else_fails b2 h0]

/-- Witness for C7: the block `IfDirectory a`, `Else`, `EndIf` from a writer at indent 0;
after the second call the indent is 1. -/
theorem nested_sequence_keeps_indent_nonneg_witness :
    (CmdWriter.mk [] [] 0).indent = 0 ∧
    (∀ k : Nat, closesIn ([Op.IfDirectory "a".toList, Op.Else, Op.EndIf].take k)
      ≤ opensIn ([Op.IfDirectory "a".toList, Op.Else, Op.EndIf].take k)) ∧
    (∀ k : Nat, [Op.IfDirectory "a".toList, Op.Else, Op.EndIf][k]? = some Op.Else →
      closesIn ([Op.IfDirectory "a".toList, Op.Else, Op.EndIf].take k)
        < opensIn ([Op.IfDirectory "a".toList, Op.Else, Op.EndIf].take k)) ∧
    ∃ b2 : CmdWriter, runOps Extern.sample
      ([Op.IfDirectory "a".toList, Op.Else, Op.EndIf].take 2) (CmdWriter.mk [] [] 0) = some b2 ∧
      b2.indent = (opensIn ([Op.IfDirectory "a".toList, Op.Else, Op.EndIf].take 2) : Int)
        - closesIn ([Op.IfDirectory "a".toList, Op.Else, Op.EndIf].take 2) ∧ 0 ≤ b2.indent :=
  have h1 : ∀ k : Nat, closesIn ([Op.IfDirectory "a".toList, Op.Else, Op.EndIf].take k)
      ≤ opensIn ([Op.IfDirectory "a".toList, Op.Else, Op.EndIf].take k) := by
    intro k
    rcases k with _ | _ | _ | _ | k
    · decide
    · decide
    · decide
    · decide
    · show closesIn [Op.IfDirectory "a".toList, Op.Else, Op.EndIf]
        ≤ opensIn [Op.IfDirectory "a".toList, Op.Else, Op.EndIf]
      decide
  have h2 : ∀ k : Nat, [Op.IfDirectory "a".toList, Op.Else, Op.EndIf][k]? = some Op.Else →
      closesIn ([Op.IfDirectory "a".toList, Op.Else, Op.EndIf].take k)
        < opensIn ([Op.IfDirectory "a".toList, Op.Else, Op.EndIf].take k) := by
    intro k hk
    rcases k with _ | _ | _ | _ | k
    · simp at hk
    · decide
    · simp at hk
    · simp at hk
    · simp at hk
  ⟨rfl, h1, h2, (nested_sequence_keeps_indent_nonneg Extern.sample
    [Op.IfDirectory "a".toList, Op.Else, Op.EndIf] (CmdWriter.mk [] [] 0) rfl h1 h2).1 2⟩

/-! ## Variable-escape against literal-escape -/

theorem double_percent_escapeChar (c : Char) :
    (escapeChar c).flatMap (fun x => if x = '%' then "%%".toList else [x])
      = escapeVariableChar c := by
  unfold escapeVariableChar
  by_cases h : c = '%'
  · subst h; simp [escapeChar]
  · rw [if_neg h]
    have hnot := percent_not_mem_escapeChar c h
    generalize escapeChar c = l at hnot
    induction l with
    | nil => rfl
    | cons x t ih =>
      have hx : x ≠ '%' := fun e => hnot (by simp [e])
      have ht : '%' ∉ t := fun e => hnot (by simp [e])
      rw [List.flatMap_cons, if_neg hx, ih ht]
      rfl

theorem escapeVariableChar_of_ne (c : Char) (h : c ≠ '%') :
    escapeVariableChar c = escapeChar c := by
  simp [escapeVariableChar, h]

theorem flatMap_escapeVariableChar_of_no_percent (T : List Char) (hT : '%' ∉ T) :
    batchEscapeVariable T = batchEscape T := by
  rw [batchEscapeVariable_eq_flatMap, batchEscape_eq_flatMap]
  induction T with
  | nil => rfl
  | cons c t ih =>
    have hc : c ≠ '%' := fun e => hT (by simp [e])
    have ht : '%' ∉ t := fun e => hT (by simp [e])
    rw [List.flatMap_cons, List.flatMap_cons, escapeVariableChar_of_ne c hc, ih ht]

/-- C15: variable-escape is literal-escape plus percent doubling, in either order:
`batchEscapeVariable T` (which doubles first and escapes second) equals `batchEscape T`
with every percent sign replaced by two, and it equals `batchEscape T` whenever `T` holds
no percent sign. -/
theorem batchEscapeVariable_eq_doubled_batchEscape (T : List Char) :
    batchEscapeVariable T = stringsReplaceAll (batchEscape T) "%".toList "%%".toList ∧
    batchEscape (stringsReplaceAll T "%".toList "%%".toList)
      = stringsReplaceAll (batchEscape T) "%".toList "%%".toList ∧
    ('%' ∉ T → batchEscapeVariable T = batchEscape T) := by
  have h1 : batchEscapeVariable T
      = stringsReplaceAll (batchEscape T) "%".toList "%%".toList := by
    rw [batchEscapeVariable_eq_flatMap, show "%".toList = ['%'] from rfl,
      stringsReplaceAll_single, batchEscape_eq_flatMap, List.flatMap_assoc]
    congr 1
    funext c
    exact (double_percent_escapeChar c).symm
  exact ⟨h1, h1, flatMap_escapeVariableChar_of_no_percent T⟩

/-- C16: `batchEscape T` and `batchEscapeVariable T` hold no carriage return and no line
feed. -/
theorem escaped_text_has_no_line_break (T : List Char) :
    ('\r' ∉ batchEscape T ∧ '\n' ∉ batchEscape T) ∧
    ('\r' ∉ batchEscapeVariable T ∧ '\n' ∉ batchEscapeVariable T) :=
  ⟨oneLine_batchEscape T, oneLine_batchEscapeVariable T⟩

/-! ## Double quotes in quoted text -/

theorem count_quote_escapeChar (c : Char) :
    (escapeChar c).count '"' = if c = '"' then 1 else 0 := by
  unfold escapeChar
  by_cases h1 : c = '^'
  · subst h1; decide
  by_cases h2 : c = '!'
  · subst h2; decide
  by_cases h3 : c = '&'
  · subst h3; decide
  by_cases h4 : c = '<'
  · subst h4; decide
  by_cases h5 : c = '>'
  · subst h5; decide
  by_cases h6 : c = '|'
  · subst h6; decide
  by_cases h7 : c = '\r'
  · subst h7; decide
  by_cases h8 : c = '\n'
  · subst h8; decide
  rw [if_neg h1, if_neg h2, if_neg h3, if_neg h4, if_neg h5, if_neg h6, if_neg h7, if_neg h8]
  by_cases hq : c = '"'
  · subst hq; decide
  · simp [hq, List.count_cons, Ne.symm hq]

theorem count_quote_batchEscape (T : List Char) :
    (batchEscape T).count '"' = T.count '"' := by
  rw [batchEscape_eq_flatMap]
  induction T with
  | nil => rfl
  | cons c t ih =>
    rw [List.flatMap_cons, List.count_append, ih, count_quote_escapeChar, List.count_cons]
    by_cases hq : c = '"'
    · subst hq; simp; omega
    · simp [hq]

/-- C20: `batchQuote` does not escape the quote character: `batchQuote T` holds two double
quotes more than `T`, so its two delimiting quotes are its only double quotes exactly
when `T` holds no double quote. -/
theorem batchQuote_count_quotes (T : List Char) :
    (batchQuote T).count '"' = 2 + T.count '"' ∧
    ((batchQuote T).count '"' = 2 ↔ '"' ∉ T) := by
  have h : (batchQuote T).count '"' = 2 + T.count '"' := by
    rw [batchQuote_eq_cons, List.count_cons, List.count_append, count_quote_batchEscape]
    simp
    omega
  refine ⟨h, ?_⟩
  rw [h]
  constructor
  · intro h2
    exact List.count_eq_zero.mp (by omega)
  · intro h2
    rw [List.count_eq_zero.mpr h2]

/-! ## The buffer only grows -/

/-- C13: the buffer is append-only and the temporary path is fixed.  At a non-negative
indent (at least 1 for `Else` and `EndIf`) each of the sixteen capability operations
succeeds, the buffer before it is a prefix of the buffer after it, and `TemporaryPath` is
unchanged; and whenever an operation succeeds, at any indent, the same two facts hold. -/
theorem capability_operations_append_only (ext : Extern) (op : Op) (b : CmdWriter)
    (h : 0 ≤ b.indent) (h1 : op.needsOpenBlock = true → 1 ≤ b.indent) :
    (∃ b2 : CmdWriter, op.apply ext b = some b2 ∧ b.Buffer <+: b2.Buffer ∧
      b2.TemporaryPath = b.TemporaryPath) ∧
    (∀ (w w2 : CmdWriter), op.apply ext w = some w2 →
      w.Buffer <+: w2.Buffer ∧ w2.TemporaryPath = w.TemporaryPath) := by
  constructor
  · obtain ⟨s, hs⟩ := Op.apply_nonneg ext op b h h1
    exact ⟨_, hs, List.prefix_append _ _, rfl⟩
  · intro w w2 hw
    obtain ⟨_, _, s, hs⟩ := Op.apply_some ext op w w2 hw
    rw [hs]
    exact ⟨List.prefix_append _ _, rfl⟩

/-- Witness for C13: an `Else` at indent 1 appends its line to the buffer `x`. -/
theorem capability_operations_append_only_witness :
    (0 : Int) ≤ (CmdWriter.mk "x".toList "t".toList 1).indent ∧
    (Op.Else.needsOpenBlock = true → (1 : Int) ≤ (CmdWriter.mk "x".toList "t".toList 1).indent) ∧
    ∃ b2 : CmdWriter, Op.Else.apply Extern.sample (CmdWriter.mk "x".toList "t".toList 1) = some b2 ∧
      (CmdWriter.mk "x".toList "t".toList 1).Buffer <+: b2.Buffer ∧
      b2.TemporaryPath = (CmdWriter.mk "x".toList "t".toList 1).TemporaryPath :=
  ⟨by decide, fun _ => by decide,
    (capability_operations_append_only Extern.sample Op.Else
      (CmdWriter.mk "x".toList "t".toList 1) (by decide) (fun _ => by decide)).1⟩

/-! ## `RmDir` and `RmFile` -/

theorem rd_line_ne_statusLine (n : Int) (rest : List Char) :
    indentPad n ++ ("rd /s /q ".toList ++ rest) ≠ indentPad n ++ statusCheck := by
  intro e
  exact absurd (List.append_cancel_left e) (by simp [statusCheck])

/-- C14: `RmDir` and `RmFile` are best-effort.  At indent `n >= 0` each appends exactly
one line (`2n` spaces, `rd /s /q `, the quoted backslash-converted path, ` 2>NUL 1>NUL`,
CRLF), which holds no line break before its CRLF, ends with ` 2>NUL 1>NUL`, and is not the
status-check line; the indent is unchanged. -/
theorem RmDir_RmFile_best_effort (ext : Extern) (b : CmdWriter) (path : List Char)
    (h : 0 ≤ b.indent) :
    b.RmDir ext path = some (b.WriteString (indentPad b.indent
      ++ ("rd /s /q ".toList ++ batchQuote (ext.ToBackslash path) ++ " 2>NUL 1>NUL".toList)
      ++ crlf)) ∧
    b.RmFile ext path = some (b.WriteString (indentPad b.indent
      ++ ("rd /s /q ".toList ++ batchQuote (ext.ToBackslash path) ++ " 2>NUL 1>NUL".toList)
      ++ crlf)) ∧
    oneLine (indentPad b.indent
      ++ ("rd /s /q ".toList ++ batchQuote (ext.ToBackslash path) ++ " 2>NUL 1>NUL".toList)) ∧
    " 2>NUL 1>NUL".toList <:+ (indentPad b.indent
      ++ ("rd /s /q ".toList ++ batchQuote (ext.ToBackslash path) ++ " 2>NUL 1>NUL".toList)) ∧
    indentPad b.indent
      ++ ("rd /s /q ".toList ++ batchQuote (ext.ToBackslash path) ++ " 2>NUL 1>NUL".toList)
      ≠ indentPad b.indent ++ statusCheck ∧
    (∀ b2 : CmdWriter, b.RmDir ext path = some b2 → b2.indent = b.indent) ∧
    (∀ b2 : CmdWriter, b.RmFile ext path = some b2 → b2.indent = b.indent) := by
  have hd := CmdWriter.Line_eq b
    ("rd /s /q ".toList ++ batchQuote (ext.ToBackslash path) ++ " 2>NUL 1>NUL".toList) h
  refine ⟨hd, hd, ?_, ?_, ?_, ?_, ?_⟩
  · exact oneLine_append (oneLine_indentPad _)
      (oneLine_append (oneLine_append (by decide) (oneLine_batchQuote _)) (by decide))
  · exact ⟨indentPad b.indent ++ ("rd /s /q ".toList ++ batchQuote (ext.ToBackslash path)),
      by simp only [List.append_assoc]⟩
  · rw [List.append_assoc "rd /s /q ".toList]
    exact rd_line_ne_statusLine _ _
  · intro b2 h2
    have h3 : b.RmDir ext path = b.Line
      ("rd /s /q ".toList ++ batchQuote (ext.ToBackslash path) ++ " 2>NUL 1>NUL".toList) := rfl
    rw [h3, hd] at h2
    rw [← Option.some.inj h2]
    rfl
  · intro b2 h2
    have h3 : b.RmFile ext path = b.Line
      ("rd /s /q ".toList ++ batchQuote (ext.ToBackslash path) ++ " 2>NUL 1>NUL".toList) := rfl
    rw [h3, hd] at h2
    rw [← Option.some.inj h2]
    rfl

/-- Witness for C14: removing `a/b` at indent 1. -/
theorem RmDir_RmFile_best_effort_witness :
    (0 : Int) ≤ (CmdWriter.mk [] [] 1).indent ∧
    (CmdWriter.mk [] [] 1).RmDir Extern.sample "a/b".toList
      = some ((CmdWriter.mk [] [] 1).WriteString
        "  rd /s /q \"a\\b\" 2>NUL 1>NUL\r\n".toList) :=
  ⟨by decide, ((RmDir_RmFile_best_effort Extern.sample (CmdWriter.mk [] [] 1) "a/b".toList
    (by decide)).1).trans (by decide)⟩

/-- C19: `RmFile` emits the directory-removal command.  For every writer state and every
path, `RmFile` gives the same result as `RmDir` (the same buffer and indent, or the same
failure), namely that of the one `Line` call with the text `rd /s /q `, the quoted
backslash-converted path and ` 2>NUL 1>NUL`; at a non-negative indent that line is
appended after the indentation. -/
theorem RmFile_eq_RmDir (ext : Extern) (b : CmdWriter) (path : List Char) :
    b.RmFile ext path = b.RmDir ext path ∧
    b.RmFile ext path = b.Line
      ("rd /s /q ".toList ++ batchQuote (ext.ToBackslash path) ++ " 2>NUL 1>NUL".toList) ∧
    (0 ≤ b.indent → b.RmFile ext path = some (b.WriteString (indentPad b.indent
      ++ ("rd /s /q ".toList ++ batchQuote (ext.ToBackslash path) ++ " 2>NUL 1>NUL".toList)
      ++ crlf))) :=
  ⟨rfl, rfl, fun h => CmdWriter.Line_eq b _ h⟩

/-! ## Carets before a metacharacter -/

theorem caretsOK_escapeChar (c : Char) (rest : List Char) (k : Nat) (hk : k % 2 = 0)
    (hrest : ∀ j : Nat, j % 2 = 0 → caretsOK j rest = true) :
    caretsOK k (escapeChar c ++ rest) = true := by
  have h0 := hrest 0 rfl
  unfold escapeChar
  by_cases h1 : c = '^'
  · subst h1
    have := hrest (k + 1 + 1) (by omega)
    simpa [caretsOK] using this
  by_cases h2 : c = '!'
  · subst h2; simpa [caretsOK, isMeta] using h0
  by_cases h3 : c = '&'
  · subst h3
    simp [caretsOK, isMeta, h0]
    omega
  by_cases h4 : c = '<'
  · subst h4
    simp [caretsOK, isMeta, h0]
    omega
  by_cases h5 : c = '>'
  · subst h5
    simp [caretsOK, isMeta, h0]
    omega
  by_cases h6 : c = '|'
  · subst h6
    simp [caretsOK, isMeta, h0]
    omega
  by_cases h7 : c = '\r'
  · subst h7; simpa using hrest k hk
  by_cases h8 : c = '\n'
  · subst h8; simpa [caretsOK, isMeta] using h0
  simp [caretsOK, isMeta, h1, h2, h3, h4, h5, h6, h7, h8, h0]

theorem caretsOK_flatMap_escapeChar (T : List Char) :
    ∀ k : Nat, k % 2 = 0 → caretsOK k (T.flatMap escapeChar) = true := by
  induction T with
  | nil => intro k _; rfl
  | cons c t ih =>
    intro k hk
    rw [List.flatMap_cons]
    exact caretsOK_escapeChar c _ k hk ih

theorem caretsOK_run (m : Char) (hm : isMeta m) (post : List Char) :
    ∀ (k j : Nat), caretsOK j (List.replicate k '^' ++ m :: post) = true → (j + k) % 2 = 1 := by
  have hm2 : m ≠ '^' := by
    intro e
    subst e
    exact absurd hm (by decide)
  intro k
  induction k with
  | zero =>
    intro j h
    simp [caretsOK, hm2, hm] at h
    simpa using h.1
  | succ k ih =>
    intro j h
    have := ih (j + 1) (by simpa [List.replicate_succ, caretsOK] using h)
    omega

theorem caretsOK_tail (x : Char) (hx : x ≠ '^') (rest : List Char) (j : Nat)
    (h : caretsOK j (x :: rest) = true) : caretsOK 0 rest = true := by
  by_cases hm : isMeta x
  · simp [caretsOK, hx, hm] at h
    exact h.2
  · simpa [caretsOK, hx, hm] using h

theorem caretsOK_run_after (m : Char) (hm : isMeta m) (post : List Char) (k : Nat) :
    ∀ (pre : List Char) (j : Nat), pre ≠ [] → pre.getLast? ≠ some '^' →
      caretsOK j (pre ++ (List.replicate k '^' ++ m :: post)) = true → k % 2 = 1 := by
  intro pre
  induction pre with
  | nil => intro j h; exact absurd rfl h
  | cons x t ih =>
    intro j _ hlast h
    cases t with
    | nil =>
      have hx : x ≠ '^' := fun e => hlast (by simp [e])
      have := caretsOK_run m hm post k 0 (caretsOK_tail x hx _ j h)
      omega
    | cons y t2 =>
      have hlast2 : (y :: t2).getLast? ≠ some '^' := by
        simpa [List.getLast?_cons_cons] using hlast
      by_cases hx : x = '^'
      · subst hx
        exact ih (j + 1) (by simp) hlast2 (by simpa [caretsOK] using h)
      · exact ih 0 (by simp) hlast2 (caretsOK_tail x hx _ j h)

/-- C17: in `batchEscape T` every `&`, `<`, `>` or `|` is escaped exactly once: the maximal
run of carets immediately before it (a block of `k` carets that is not preceded by a
further caret) has odd length. -/
theorem batchEscape_meta_after_odd_carets (T pre post : List Char) (k : Nat) (m : Char)
    (hm : m = '&' ∨ m = '<' ∨ m = '>' ∨ m = '|')
    (h : batchEscape T = pre ++ List.replicate k '^' ++ m :: post)
    (hpre : pre.getLast? ≠ some '^') : Odd k := by
  have hok := caretsOK_flatMap_escapeChar T 0 rfl
  rw [← batchEscape_eq_flatMap, h, List.append_assoc] at hok
  rw [Nat.odd_iff]
  cases pre with
  | nil =>
    have := caretsOK_run m hm post k 0 (by simpa using hok)
    omega
  | cons x t => exact caretsOK_run_after m hm post k (x :: t) 0 (by simp) hpre hok

/-- Witness for C17 at the text `a^&`: three carets before the ampersand. -/
theorem batchEscape_meta_after_odd_carets_witness :
    ('&' = '&' ∨ '&' = '<' ∨ '&' = '>' ∨ '&' = '|') ∧
    batchEscape "a^&".toList = "a".toList ++ List.replicate 3 '^' ++ '&' :: [] ∧
    "a".toList.getLast? ≠ some '^' ∧ Odd 3 :=
  ⟨by decide, by decide, by decide,
    batchEscape_meta_after_odd_carets "a^&".toList "a".toList [] 3 '&' (by decide) (by decide)
      (by decide)⟩

/-! ## `GenerateScript` -/

theorem newCmdWriter_eq (info : ShellScriptInfo) :
    newCmdWriter info.Build.FullProjectDir = some (scriptStart info) := rfl

theorem banner_Line (info : ShellScriptInfo) :
    (if info.Build.Hostname.length ≠ 0 then
      (scriptStart info).Line ("echo Running on %COMPUTERNAME% via ".toList
        ++ batchEscape info.Build.Hostname ++ "...".toList)
    else
      (scriptStart info).Line "echo Running on %COMPUTERNAME%...".toList)
      = some (preScriptStart info) := by
  have h0 : (0 : Int) ≤ (scriptStart info).indent := Int.le_refl 0
  unfold preScriptStart banner
  by_cases h : info.Build.Hostname.length ≠ 0
  · rw [if_pos h, if_pos h, CmdWriter.Line_eq _ _ h0]
    rfl
  · rw [if_neg h, if_neg h, CmdWriter.Line_eq _ _ h0]
    rfl

/-- `GenerateScript` with its own `Line` calls evaluated: what remains are the calls of
the phase generators on their fresh writers. -/
theorem GenerateScript_eq (b : AbstractShell) (info : ShellScriptInfo) :
    GenerateScript b info =
      match b.GeneratePreBuild (preScriptStart info) info with
      | (_, some err) => some { script := none, err := some err, called := [Phase.PreBuild] }
      | (preScript, none) =>
        match b.GenerateBuild (scriptStart info) info with
        | (_, some err) =>
          some { script := none, err := some err, called := [Phase.PreBuild, Phase.Build] }
        | (buildScript, none) =>
          match b.GenerateAfterBuild (scriptStart info) info with
          | (_, some err) =>
            some { script := none, err := some err,
                   called := [Phase.PreBuild, Phase.Build, Phase.AfterBuild] }
          | (afterScript, none) =>
            match b.GeneratePostBuild (scriptStart info) info with
            | (_, some err) =>
              some { script := none, err := some err,
                     called := [Phase.PreBuild, Phase.Build, Phase.AfterBuild, Phase.PostBuild] }
            | (postScript, none) =>
              some {
                script := some {
                  PreScript := preScript.Buffer
                  BuildScript := buildScript.Buffer
                  AfterScript := afterScript.Buffer
                  PostScript := postScript.Buffer
                  Command := "cmd".toList
                  Arguments := ["/Q".toList, "/C".toList]
                  PassFile := true
                  Extension := "cmd".toList }
                err := none
                called := [Phase.PreBuild, Phase.Build, Phase.AfterBuild, Phase.PostBuild] } := by
  unfold GenerateScript
  rw [newCmdWriter_eq, Option.some_bind, banner_Line, Option.some_bind]
  rfl

/-- C11: `GenerateScript` returns an error exactly when one of the four phase generators,
each run on its own fresh writer, fails.  The error is that of the first failing phase in
the order pre-build, build, after-build, post-build; the generators called are those up to
and including that phase; and with an error the descriptor is nil.  Without any failure
all four are called and a descriptor is returned. -/
theorem GenerateScript_error_propagation (b : AbstractShell) (info : ShellScriptInfo) :
    ∃ g : Generated, GenerateScript b info = some g ∧
      (g.err.isSome = true ↔
        (b.GeneratePreBuild (preScriptStart info) info).2.isSome = true ∨
        (b.GenerateBuild (scriptStart info) info).2.isSome = true ∨
        (b.GenerateAfterBuild (scriptStart info) info).2.isSome = true ∨
        (b.GeneratePostBuild (scriptStart info) info).2.isSome = true) ∧
      (∀ err : GoError, (b.GeneratePreBuild (preScriptStart info) info).2 = some err →
        g.err = some err ∧ g.called = [Phase.PreBuild] ∧ g.script = none) ∧
      (∀ err : GoError, (b.GeneratePreBuild (preScriptStart info) info).2 = none →
        (b.GenerateBuild (scriptStart info) info).2 = some err →
        g.err = some err ∧ g.called = [Phase.PreBuild, Phase.Build] ∧ g.script = none) ∧
      (∀ err : GoError, (b.GeneratePreBuild (preScriptStart info) info).2 = none →
        (b.GenerateBuild (scriptStart info) info).2 = none →
        (b.GenerateAfterBuild (scriptStart info) info).2 = some err →
        g.err = some err ∧ g.called = [Phase.PreBuild, Phase.Build, Phase.AfterBuild] ∧
        g.script = none) ∧
      (∀ err : GoError, (b.GeneratePreBuild (preScriptStart info) info).2 = none →
        (b.GenerateBuild (scriptStart info) info).2 = none →
        (b.GenerateAfterBuild (scriptStart info) info).2 = none →
        (b.GeneratePostBuild (scriptStart info) info).2 = some err →
        g.err = some err ∧
        g.called = [Phase.PreBuild, Phase.Build, Phase.AfterBuild, Phase.PostBuild] ∧
        g.script = none) ∧
      ((b.GeneratePreBuild (preScriptStart info) info).2 = none →
        (b.GenerateBuild (scriptStart info) info).2 = none →
        (b.GenerateAfterBuild (scriptStart info) info).2 = none →
        (b.GeneratePostBuild (scriptStart info) info).2 = none →
        g.err = none ∧
        g.called = [Phase.PreBuild, Phase.Build, Phase.AfterBuild, Phase.PostBuild] ∧
        g.script.isSome = true) ∧
      (g.err.isSome = true → g.script = none) := by
  rw [GenerateScript_eq]
  rcases h1 : b.GeneratePreBuild (preScriptStart info) info with ⟨w1, _ | e1⟩
  · rcases h2 : b.GenerateBuild (scriptStart info) info with ⟨w2, _ | e2⟩
    · rcases h3 : b.GenerateAfterBuild (scriptStart info) info with ⟨w3, _ | e3⟩
      · rcases h4 : b.GeneratePostBuild (scriptStart info) info with ⟨w4, _ | e4⟩
        · exact ⟨_, rfl, by simp⟩
        · exact ⟨_, rfl, by simp⟩
      · exact ⟨_, rfl, by simp⟩
    · exact ⟨_, rfl, by simp⟩
  · exact ⟨_, rfl, by simp⟩

/-- C12: when every phase generator only appends to the writer it is given and
`GenerateScript` returns a descriptor, each of `PreScript`, `BuildScript`, `AfterScript`
and `PostScript` begins with the three-line prologue `@echo off`, `setlocal
enableextensions`, `setlocal enableDelayedExpansion`, each line ended by CRLF. -/
theorem GenerateScript_bodies_begin_with_prologue (b : AbstractShell) (info : ShellScriptInfo)
    (g : Generated) (s : ShellScript)
    (hpre : ∀ (w : CmdWriter) (i : ShellScriptInfo),
      w.Buffer <+: (b.GeneratePreBuild w i).1.Buffer)
    (hbuild : ∀ (w : CmdWriter) (i : ShellScriptInfo),
      w.Buffer <+: (b.GenerateBuild w i).1.Buffer)
    (hafter : ∀ (w : CmdWriter) (i : ShellScriptInfo),
      w.Buffer <+: (b.GenerateAfterBuild w i).1.Buffer)
    (hpost : ∀ (w : CmdWriter) (i : ShellScriptInfo),
      w.Buffer <+: (b.GeneratePostBuild w i).1.Buffer)
    (hg : GenerateScript b info = some g) (hs : g.script = some s) :
    prologue <+: s.PreScript ∧ prologue <+: s.BuildScript ∧
    prologue <+: s.AfterScript ∧ prologue <+: s.PostScript := by
  have hstart : prologue <+: (scriptStart info).Buffer := List.prefix_append _ _
  have hprestart : prologue <+: (preScriptStart info).Buffer :=
    List.IsPrefix.trans hstart (List.prefix_append _ _)
  have p1 := List.IsPrefix.trans hprestart (hpre (preScriptStart info) info)
  have p2 := List.IsPrefix.trans hstart (hbuild (scriptStart info) info)
  have p3 := List.IsPrefix.trans hstart (hafter (scriptStart info) info)
  have p4 := List.IsPrefix.trans hstart (hpost (scriptStart info) info)
  rw [GenerateScript_eq] at hg
  rcases h1 : b.GeneratePreBuild (preScriptStart info) info with ⟨w1, _ | e1⟩
  · rcases h2 : b.GenerateBuild (scriptStart info) info with ⟨w2, _ | e2⟩
    · rcases h3 : b.GenerateAfterBuild (scriptStart info) info with ⟨w3, _ | e3⟩
      · rcases h4 : b.GeneratePostBuild (scriptStart info) info with ⟨w4, _ | e4⟩
        · rw [h1, h2, h3, h4] at hg
          rw [h1] at p1
          rw [h2] at p2
          rw [h3] at p3
          rw [h4] at p4
          have hg2 := Option.some.inj hg
          rw [← hg2] at hs
          have hs2 := Option.some.inj hs
          rw [← hs2]
          exact ⟨p1, p2, p3, p4⟩
        · rw [h1, h2, h3, h4] at hg
          have hg2 := Option.some.inj hg
          rw [← hg2] at hs
          exact absurd hs (by simp)
      · rw [h1, h2, h3] at hg
        have hg2 := Option.some.inj hg
        rw [← hg2] at hs
        exact absurd hs (by simp)
    · rw [h1, h2] at hg
      have hg2 := Option.some.inj hg
      rw [← hg2] at hs
      exact absurd hs (by simp)
  · rw [h1] at hg
    have hg2 := Option.some.inj hg
    rw [← hg2] at hs
    exact absurd hs (by simp)

/-- Witness for C12: the sample generators on a build in `/builds/p` on host `h`. -/
theorem GenerateScript_bodies_begin_with_prologue_witness :
    (∀ (w : CmdWriter) (i : ShellScriptInfo),
      w.Buffer <+: (AbstractShell.sample.GeneratePreBuild w i).1.Buffer) ∧
    (∀ (w : CmdWriter) (i : ShellScriptInfo),
      w.Buffer <+: (AbstractShell.sample.GenerateBuild w i).1.Buffer) ∧
    (∀ (w : CmdWriter) (i : ShellScriptInfo),
      w.Buffer <+: (AbstractShell.sample.GenerateAfterBuild w i).1.Buffer) ∧
    (∀ (w : CmdWriter) (i : ShellScriptInfo),
      w.Buffer <+: (AbstractShell.sample.GeneratePostBuild w i).1.Buffer) ∧
    ∃ (g : Generated) (s : ShellScript),
      GenerateScript AbstractShell.sample
        (ShellScriptInfo.mk (BuildInfo.mk "/builds/p".toList "h".toList)) = some g ∧
      g.script = some s ∧
      s.PreScript = prologue ++ ("set nl=^\r\n\r\n\r\n".toList
        ++ "echo Running on %COMPUTERNAME% via h...\r\necho pre\r\n".toList) ∧
      prologue <+: s.PreScript ∧ prologue <+: s.BuildScript ∧
      prologue <+: s.AfterScript ∧ prologue <+: s.PostScript :=
  have h1 : ∀ (w : CmdWriter) (i : ShellScriptInfo),
      w.Buffer <+: (AbstractShell.sample.GeneratePreBuild w i).1.Buffer :=
    fun _ _ => List.prefix_append _ _
  have h2 : ∀ (w : CmdWriter) (i : ShellScriptInfo),
      w.Buffer <+: (AbstractShell.sample.GenerateBuild w i).1.Buffer :=
    fun _ _ => List.prefix_append _ _
  have h3 : ∀ (w : CmdWriter) (i : ShellScriptInfo),
      w.Buffer <+: (AbstractShell.sample.GenerateAfterBuild w i).1.Buffer :=
    fun _ _ => List.prefix_append _ _
  have h4 : ∀ (w : CmdWriter) (i : ShellScriptInfo),
      w.Buffer <+: (AbstractShell.sample.GeneratePostBuild w i).1.Buffer :=
    fun _ _ => List.prefix_append _ _
  ⟨h1, h2, h3, h4, _, _, rfl, rfl, by decide,
    GenerateScript_bodies_begin_with_prologue AbstractShell.sample
      (ShellScriptInfo.mk (BuildInfo.mk "/builds/p".toList "h".toList)) _ _ h1 h2 h3 h4 rfl rfl⟩

/-! ## Layout of conditional blocks -/

theorem after_after (b : CmdWriter) (s t : List Char) (d e : Int) :
    (b.after s d).after t e = b.after (s ++ t) (d + e) := by
  simp [CmdWriter.after, Int.add_assoc]

theorem some_after_lines {b : CmdWriter} {x : Option CmdWriter} {s t : List Char} {d : Int}
    (h : x = some (b.after s d)) (hs : s = t) : x = some (b.after t d) := by
  rw [h, hs]

/-- At a non-negative indent (at least 1 for `Else` and `EndIf`) a call appends exactly
its line texts, each after the indentation of the indent at which it writes. -/
theorem Op.apply_lines (ext : Extern) (op : Op) (b : CmdWriter) (h : 0 ≤ b.indent)
    (h1 : op.needsOpenBlock = true → 1 ≤ b.indent) :
    op.apply ext b = some (b.after
      ((op.lineTexts ext b).flatMap
        (fun t => indentPad (b.indent + op.lineShift) ++ t ++ crlf)) op.indentDelta) := by
  have hz : b.indent + 0 = b.indent := Int.add_zero _
  have hm : b.indent + -1 = b.indent - 1 := rfl
  cases op with
  | Line text =>
    exact some_after_lines (some_after_zero (CmdWriter.Line_eq b text h))
      (by simp [Op.lineTexts, Op.lineShift, Op.needsOpenBlock])
  | CheckForErrors =>
    exact some_after_lines (some_after_zero (CmdWriter.checkErrorLevel_eq b h))
      (by simp [Op.lineTexts, Op.lineShift, Op.needsOpenBlock])
  | Command command arguments =>
    exact some_after_lines (some_after_zero (CmdWriter.Command_eq b command arguments h))
      (by simp [Op.lineTexts, Op.lineShift, Op.needsOpenBlock])
  | Variable v =>
    cases hf : v.File with
    | false =>
      exact some_after_lines (some_after_zero (CmdWriter.Variable_inline_eq ext b v h hf))
        (by simp [Op.lineTexts, Op.lineShift, Op.needsOpenBlock, hf])
    | true =>
      exact some_after_lines (some_after_zero (CmdWriter.Variable_file_eq ext b v h hf))
        (by simp [Op.lineTexts, Op.lineShift, Op.needsOpenBlock, hf])
  | IfDirectory path =>
    exact some_after_lines (Line_then_Indent b _ h)
      (by simp [Op.lineTexts, Op.lineShift, Op.needsOpenBlock])
  | IfFile path =>
    exact some_after_lines (Line_then_Indent b _ h)
      (by simp [Op.lineTexts, Op.lineShift, Op.needsOpenBlock])
  | Else =>
    exact some_after_lines (Unindent_Line_Indent b _ (h1 rfl))
      (by simp [Op.lineTexts, Op.lineShift, Op.needsOpenBlock, hm])
  | EndIf =>
    exact some_after_lines (Unindent_Line b _ (h1 rfl))
      (by simp [Op.lineTexts, Op.lineShift, Op.needsOpenBlock, hm])
  | Cd path =>
    exact some_after_lines (some_after_zero (CmdWriter.Cd_eq ext b path h))
      (by simp [Op.lineTexts, Op.lineShift, Op.needsOpenBlock])
  | RmDir path =>
    exact some_after_lines (some_after_zero (CmdWriter.Line_eq b _ h))
      (by simp [Op.lineTexts, Op.lineShift, Op.needsOpenBlock])
  | RmFile path =>
    exact some_after_lines (some_after_zero (CmdWriter.Line_eq b _ h))
      (by simp [Op.lineTexts, Op.lineShift, Op.needsOpenBlock])
  | Print format arguments =>
    exact some_after_lines (some_after_zero (CmdWriter.Line_eq b _ h))
      (by simp [Op.lineTexts, Op.lineShift, Op.needsOpenBlock])
  | Notice format arguments =>
    exact some_after_lines (some_after_zero (CmdWriter.Line_eq b _ h))
      (by simp [Op.lineTexts, Op.lineShift, Op.needsOpenBlock])
  | Warning format arguments =>
    exact some_after_lines (some_after_zero (CmdWriter.Line_eq b _ h))
      (by simp [Op.lineTexts, Op.lineShift, Op.needsOpenBlock])
  | Error format arguments =>
    exact some_after_lines (some_after_zero (CmdWriter.Line_eq b _ h))
      (by simp [Op.lineTexts, Op.lineShift, Op.needsOpenBlock])
  | EmptyLine =>
    exact some_after_lines (some_after_zero (CmdWriter.Line_eq b _ h))
      (by simp [Op.lineTexts, Op.lineShift, Op.needsOpenBlock])

theorem Op.lineTexts_after (ext : Extern) (op : Op) (b : CmdWriter) (s : List Char) (d : Int) :
    op.lineTexts ext (b.after s d) = op.lineTexts ext b := by
  cases op <;> rfl

theorem after_nil_zero (b : CmdWriter) : b.after [] 0 = b := by
  simp [CmdWriter.after]

theorem stackOK_insideLevel (stack : List Nat) (h : stackOK stack) :
    insideLevel stack = stack.length := by
  cases stack with
  | nil => rfl
  | cons opened outer => simp [insideLevel, h.1]

theorem renderLines_append (base : Int) (l1 l2 : List (Nat × List Char)) :
    renderLines base (l1 ++ l2) = renderLines base l1 ++ renderLines base l2 := by
  simp [renderLines]

theorem renderLines_level (base : Int) (level : Nat) (texts : List (List Char)) :
    renderLines base (texts.map (fun t => (level, t)))
      = texts.flatMap (fun t => indentPad (base + level) ++ t ++ crlf) := by
  induction texts with
  | nil => rfl
  | cons t rest ih =>
    rw [List.map_cons, List.flatMap_cons, ← ih]
    rfl

theorem runOps_cons_some (ext : Extern) (op : Op) (rest : List Op) (w w2 : CmdWriter)
    (h : op.apply ext w = some w2) : runOps ext (op :: rest) w = runOps ext rest w2 := by
  simp [runOps, h]

/-- One step of the comparison of a run with its layout: the call writes its lines at
`level`, after which the rest of the run follows the rest of the layout. -/
theorem runOps_layout_step (ext : Extern) (b0 w : CmdWriter) (base : Int) (op : Op)
    (rest : List Op) (level : Nat) (restLines : List (Nat × List Char)) (d : Int)
    (h0 : 0 ≤ w.indent) (h1 : op.needsOpenBlock = true → 1 ≤ w.indent)
    (htexts : op.lineTexts ext w = op.lineTexts ext b0)
    (hlevel : w.indent + op.lineShift = base + level)
    (hrest : runOps ext rest (w.after
        ((op.lineTexts ext w).flatMap
          (fun t => indentPad (w.indent + op.lineShift) ++ t ++ crlf)) op.indentDelta)
      = some ((w.after
        ((op.lineTexts ext w).flatMap
          (fun t => indentPad (w.indent + op.lineShift) ++ t ++ crlf)) op.indentDelta).after
        (renderLines base restLines) d)) :
    runOps ext (op :: rest) w = some (w.after
      (renderLines base ((op.lineTexts ext b0).map (fun t => (level, t)) ++ restLines))
      (op.indentDelta + d)) := by
  rw [runOps_cons_some ext op rest w _ (Op.apply_lines ext op w h0 h1), hrest, after_after,
    renderLines_append, renderLines_level, htexts, hlevel]

/-- A well-nested run writes exactly the text of its layout. -/
theorem runOps_layout (ext : Extern) (b0 : CmdWriter) (base : Int) (hbase : 0 ≤ base) :
    ∀ (ops : List Op) (stack : List Nat) (w : CmdWriter) (d2 : Nat), stackOK stack →
      w.indent = base + stack.length →
      (∀ op : Op, op.lineTexts ext w = op.lineTexts ext b0) →
      nestingDepth stack.length ops = some d2 →
      ∃ lines : List (Nat × List Char), layout ext b0 stack ops = some lines ∧
        runOps ext ops w
          = some (w.after (renderLines base lines) ((d2 : Int) - stack.length)) := by
  intro ops
  induction ops with
  | nil =>
    intro stack w d2 _ _ _ hn
    have hd : stack.length = d2 := by simpa [nestingDepth] using hn
    refine ⟨[], rfl, ?_⟩
    rw [← hd]
    simp [runOps, renderLines, after_nil_zero]
  | cons op rest ih =>
    intro stack w d2 hst hind htexts hn
    obtain ⟨hopen, d1, hd1, hrest⟩ := nestingDepth_step op stack.length d2 rest hn
    have h0 : 0 ≤ w.indent := by omega
    have h1 : op.needsOpenBlock = true → 1 ≤ w.indent := fun hop => by
      have := hopen hop
      omega
    have htexts2 : ∀ (s : List Char) (d : Int) (o : Op),
        o.lineTexts ext (w.after s d) = o.lineTexts ext b0 := fun s d o => by
      rw [Op.lineTexts_after, htexts]
    have hlevel := stackOK_insideLevel stack hst
    by_cases ho : op.opensBlock = true
    · have hno : op.needsOpenBlock = false := by
        cases op <;> simp [Op.opensBlock, Op.needsOpenBlock] at ho ⊢
      have hdelta : op.indentDelta = 1 := by simp [Op.indentDelta, ho]
      have hshift : op.lineShift = 0 := by simp [Op.lineShift, hno]
      have hd1n : d1 = (insideLevel stack :: stack).length := by
        rw [hdelta] at hd1
        simp only [List.length_cons]
        omega
      obtain ⟨lines, hlay, hrun⟩ := ih (insideLevel stack :: stack) (w.after _ op.indentDelta) d2
        ⟨hlevel, hst⟩
        (by show w.indent + op.indentDelta = _
            rw [hdelta, hind]
            simp only [List.length_cons]
            omega)
        (htexts2 _ _) (hd1n ▸ hrest)
      refine ⟨(op.lineTexts ext b0).map (fun t => (insideLevel stack, t)) ++ lines, ?_, ?_⟩
      · simp only [layout, ho, if_true, hlay, Option.map_some']
      · rw [runOps_layout_step ext b0 w base op rest (insideLevel stack) lines _ h0 h1
          (htexts op) (by rw [hshift, hind, hlevel]; omega) hrun, hdelta]
        congr 2
        simp only [List.length_cons]
        omega
    · have ho2 : op.opensBlock = false := by simpa using ho
      by_cases hnb : op.needsOpenBlock = true
      · have hshift : op.lineShift = -1 := by simp [Op.lineShift, hnb]
        cases stack with
        | nil =>
          have := hopen hnb
          simp at this
        | cons opened outer =>
          have hopened : opened = outer.length := hst.1
          by_cases hc : op.closesBlock = true
          · have hdelta : op.indentDelta = -1 := by simp [Op.indentDelta, ho2, hc]
            have hd1n : d1 = outer.length := by
              rw [hdelta] at hd1
              simp only [List.length_cons] at hd1
              omega
            obtain ⟨lines, hlay, hrun⟩ := ih outer (w.after _ op.indentDelta) d2 hst.2
              (by show w.indent + op.indentDelta = _
                  rw [hdelta, hind]
                  simp only [List.length_cons]
                  omega)
              (htexts2 _ _) (hd1n ▸ hrest)
            refine ⟨(op.lineTexts ext b0).map (fun t => (opened, t)) ++ lines, ?_, ?_⟩
            · simp only [layout, ho2, hnb, hc, if_true, hlay, Option.map_some']
              simp
            · rw [runOps_layout_step ext b0 w base op rest opened lines _ h0 h1
                (htexts op) (by rw [hshift, hind]; simp only [List.length_cons]; omega) hrun,
                hdelta]
              congr 2
              simp only [List.length_cons]
              omega
          · have hc2 : op.closesBlock = false := by simpa using hc
            have hdelta : op.indentDelta = 0 := by simp [Op.indentDelta, ho2, hc2]
            have hd1n : d1 = (opened :: outer).length := by
              rw [hdelta] at hd1
              omega
            obtain ⟨lines, hlay, hrun⟩ := ih (opened :: outer) (w.after _ op.indentDelta) d2 hst
              (by show w.indent + op.indentDelta = _
                  rw [hdelta, hind]
                  omega)
              (htexts2 _ _) (hd1n ▸ hrest)
            refine ⟨(op.lineTexts ext b0).map (fun t => (opened, t)) ++ lines, ?_, ?_⟩
            · simp only [layout, ho2, hnb, hc2, if_true, hlay, Option.map_some']
              simp [hlay]
            · rw [runOps_layout_step ext b0 w base op rest opened lines _ h0 h1
                (htexts op) (by rw [hshift, hind]; simp only [List.length_cons]; omega) hrun,
                hdelta]
              congr 2
              omega
      · have hnb2 : op.needsOpenBlock = false := by simpa using hnb
        have hc2 : op.closesBlock = false := by
          cases op <;> simp [Op.closesBlock, Op.needsOpenBlock] at hnb2 ⊢
        have hdelta : op.indentDelta = 0 := by simp [Op.indentDelta, ho2, hc2]
        have hshift : op.lineShift = 0 := by simp [Op.lineShift, hnb2]
        have hd1n : d1 = stack.length := by
          rw [hdelta] at hd1
          omega
        obtain ⟨lines, hlay, hrun⟩ := ih stack (w.after _ op.indentDelta) d2 hst
          (by show w.indent + op.indentDelta = _
              rw [hdelta, hind]
              omega)
          (htexts2 _ _) (hd1n ▸ hrest)
        refine ⟨(op.lineTexts ext b0).map (fun t => (insideLevel stack, t)) ++ lines, ?_, ?_⟩
        · simp only [layout, ho2, hnb2, hlay, Option.map_some']
          simp
        · rw [runOps_layout_step ext b0 w base op rest (insideLevel stack) lines _ h0 h1
            (htexts op) (by rw [hshift, hind, hlevel]; omega) hrun, hdelta]
          congr 2
          omega

theorem takeWhile_space_replicate (k : Nat) (rest : List Char) (h : rest.head? ≠ some ' ') :
    ((List.replicate k ' ' ++ rest).takeWhile (fun c => c == ' ')).length = k := by
  induction k with
  | zero =>
    cases rest with
    | nil => rfl
    | cons x t =>
      have hx : (x == ' ') = false := by
        have : x ≠ ' ' := fun e => h (by simp [e])
        simpa using this
      rw [List.replicate_zero, List.nil_append, List.takeWhile_cons, hx]
      rfl
  | succ k ih =>
    rw [List.replicate_succ, List.cons_append, List.takeWhile_cons]
    simp only [beq_self_eq_true, if_true, List.length_cons, ih]

theorem leadingSpaces_line (n : Int) (t : List Char) (h : t.head? ≠ some ' ') :
    leadingSpaces (indentPad n ++ t ++ crlf) = 2 * n.toNat := by
  unfold leadingSpaces indentPad
  rw [List.append_assoc]
  apply takeWhile_space_replicate
  cases t with
  | nil => decide
  | cons x l => simpa using h

theorem block_texts_start (ext : Extern) (b : CmdWriter) (op : Op)
    (hop : op.opensBlock = true ∨ op.needsOpenBlock = true) :
    ∀ t ∈ op.lineTexts ext b, t.head? ≠ some ' ' := by
  intro t ht
  cases op <;> simp [Op.opensBlock, Op.needsOpenBlock] at hop <;>
    simp [Op.lineTexts] at ht <;> subst ht <;> simp

/-- C18: a well-nested sequence of calls started at indent `n >= 0` writes exactly the text
of its layout: the `IF EXIST` line of a block at the level current when it is issued, the
`) ELSE (` and `)` lines of the block at that same recorded level, and every line inside
the block one level further in, a level being two spaces; the block lines do not start
with a space themselves, so a line at level `l` has exactly `2 * (n + l)` leading spaces. -/
theorem block_lines_keep_opening_indent (ext : Extern) (ops : List Op) (b : CmdWriter)
    (d : Nat) (h : 0 ≤ b.indent) (hn : nestingDepth 0 ops = some d) :
    (∃ lines : List (Nat × List Char), layout ext b [] ops = some lines ∧
      runOps ext ops b = some (b.after (renderLines b.indent lines) d)) ∧
    (∀ op : Op, op.opensBlock = true ∨ op.needsOpenBlock = true →
      ∀ t ∈ op.lineTexts ext b, t.head? ≠ some ' ') ∧
    (∀ (level : Nat) (t : List Char), t.head? ≠ some ' ' →
      leadingSpaces (indentPad (b.indent + level) ++ t ++ crlf)
        = 2 * (b.indent.toNat + level)) := by
  refine ⟨?_, block_texts_start ext b, ?_⟩
  · obtain ⟨lines, hlay, hrun⟩ := runOps_layout ext b b.indent h ops [] b d trivial
      (by simp) (fun _ => rfl) hn
    exact ⟨lines, hlay, by simpa using hrun⟩
  · intro level t ht
    rw [leadingSpaces_line _ t ht]
    omega

/-- Witness for C18: a block with an else branch that holds a second block, started at
indent 1; the inner block is written one level further in. -/
theorem block_lines_keep_opening_indent_witness :
    (0 : Int) ≤ (CmdWriter.mk [] [] 1).indent ∧
    nestingDepth 0 [Op.IfDirectory "a".toList, Op.Line "x".toList, Op.Else,
      Op.IfFile "f".toList, Op.Line "y".toList, Op.EndIf, Op.EndIf] = some 0 ∧
    layout Extern.sample (CmdWriter.mk [] [] 1) [] [Op.IfDirectory "a".toList,
      Op.Line "x".toList, Op.Else, Op.IfFile "f".toList, Op.Line "y".toList, Op.EndIf,
      Op.EndIf]
      = some [(0, "IF EXIST \"a\" (".toList), (1, "x".toList), (0, ") ELSE (".toList),
          (1, "IF EXIST \"f\" (".toList), (2, "y".toList), (1, ")".toList),
          (0, ")".toList)] ∧
    runOps Extern.sample [Op.IfDirectory "a".toList, Op.Line "x".toList, Op.Else,
      Op.IfFile "f".toList, Op.Line "y".toList, Op.EndIf, Op.EndIf] (CmdWriter.mk [] [] 1)
      = some ((CmdWriter.mk [] [] 1).WriteString
        ("  IF EXIST \"a\" (\r\n    x\r\n  ) ELSE (\r\n".toList
          ++ "    IF EXIST \"f\" (\r\n      y\r\n    )\r\n  )\r\n".toList)) ∧
    ∃ lines : List (Nat × List Char),
      layout Extern.sample (CmdWriter.mk [] [] 1) [] [Op.IfDirectory "a".toList,
        Op.Line "x".toList, Op.Else, Op.IfFile "f".toList, Op.Line "y".toList, Op.EndIf,
        Op.EndIf] = some lines ∧
      runOps Extern.sample [Op.IfDirectory "a".toList, Op.Line "x".toList, Op.Else,
        Op.IfFile "f".toList, Op.Line "y".toList, Op.EndIf, Op.EndIf] (CmdWriter.mk [] [] 1)
        = some ((CmdWriter.mk [] [] 1).after (renderLines 1 lines) (0 : Nat)) :=
  ⟨by decide, by decide, by decide, by decide,
    (block_lines_keep_opening_indent Extern.sample [Op.IfDirectory "a".toList,
      Op.Line "x".toList, Op.Else, Op.IfFile "f".toList, Op.Line "y".toList, Op.EndIf,
      Op.EndIf] (CmdWriter.mk [] [] 1) 0 (by decide) (by decide)).1⟩

end Shells
